import Mathlib

/-!
Verification of the ECS agent image-manager subsystem
(`agent/engine/docker_image_manager.go` together with the `image` package
variant).  The Go code is shallowly embedded: the manager's mutable
`imageStates` slice becomes a `List ImageState` threaded through the
operations, `time.Time` values become integers (nanoseconds, as Go's
monotonic reading), and the Docker client is an explicit oracle argument
(`InspectImage` results are passed in, `RemoveImage` is a function from
identity to result).  Slice splices performed while ranging over a stale
slice header (in `removeImageName` and `removeImages`) are modelled with an
explicit backing array plus live length, reproducing Go's aliasing and
bounds-check behaviour; an out-of-range slice expression is modelled as
`none` (a runtime panic).
-/

namespace EcsImage

/-- Go `api.Container`: the two fields the image manager reads. -/
structure Container where
  Name : String
  Image : String
deriving DecidableEq, Repr

/-- Result of `DockerClient.InspectImage`: the fields the manager uses. -/
structure InspectedImage where
  ID : String
  Size : Int
deriving DecidableEq, Repr

/-- Go `image.Image` (engine variant, field `ImageId`). -/
structure Image where
  ImageId : String
  Names : List String
  Size : Int
deriving DecidableEq, Repr

/-- Go `image.ImageState`: one image plus its runtime state. -/
structure ImageState where
  Image : Image
  Containers : List Container
  PulledAt : Int
  LastUsedAt : Int
deriving DecidableEq, Repr

/-- Go `numImagesToDelete = 5`. -/
def numImagesToDelete : Nat := 5

/-- Go `minimumAgeBeforeDeletion = 1 * time.Hour`, in nanoseconds. -/
def minimumAgeBeforeDeletion : Int := 3600000000000

/-- Go `imageNotFoundErrorMessage`. -/
def imageNotFoundErrorMessage : String := "no such image"

/-- Go `getImageState`: first tracked state whose `Image.ImageId` matches. -/
def getImageState (states : List ImageState) (containerImageID : String) :
    Option ImageState :=
  match states with
  | [] => none
  | s :: rest =>
      if s.Image.ImageId = containerImageID then some s
      else getImageState rest containerImageID

/-- Pointer-style update: the Go code mutates the state found by
`getImageState` in place, which is the first entry with the given ID. -/
def updateStateById (states : List ImageState) (id : String)
    (f : ImageState → ImageState) : List ImageState :=
  match states with
  | [] => []
  | s :: rest =>
      if s.Image.ImageId = id then f s :: rest
      else s :: updateStateById rest id f

/-- Go `removeImageState`: splice out the first state with the given ID. -/
def removeStateById (states : List ImageState) (id : String) :
    List ImageState :=
  match states with
  | [] => []
  | s :: rest =>
      if s.Image.ImageId = id then rest else s :: removeStateById rest id

/-- Go `hasImageName`: linear scan of the alias list, i.e. membership. -/
def hasImageName (s : ImageState) (containerImageName : String) : Bool :=
  decide (containerImageName ∈ s.Image.Names)

/-- Go `addImageName`: append the alias (the manager appends unconditionally;
its caller guards with `hasImageName`). -/
def addImageName (s : ImageState) (imageName : String) : ImageState :=
  { s with Image := { s.Image with Names := s.Image.Names ++ [imageName] } }

/-- The manager's `updateContainerReference`: append the container,
touching nothing else. -/
def updateContainerReference (s : ImageState) (c : Container) : ImageState :=
  { s with Containers := s.Containers ++ [c] }

/-- Go `removeExistingImageNameOfDifferentID`: scan states in order; in the
first state holding the alias under a different ID, splice out the first
occurrence of the alias and return. -/
def removeExistingImageNameOfDifferentID (states : List ImageState)
    (containerImageName : String) (inspectedImageID : String) :
    List ImageState :=
  match states with
  | [] => []
  | s :: rest =>
      if s.Image.ImageId ≠ inspectedImageID ∧
          containerImageName ∈ s.Image.Names then
        { s with Image :=
            { s.Image with Names := s.Image.Names.erase containerImageName } }
          :: rest
      else
        s :: removeExistingImageNameOfDifferentID rest containerImageName
          inspectedImageID

/-- Go `AddContainerReferenceToImageState`.  `inspect` is the runtime's
`InspectImage` answer for `c.Image`; `now` is the value `time.Now()` takes
during the call.  Returns the new inventory and the error (`none` on
success); the inventory is returned unchanged on every error path, exactly
as the Go code mutates nothing before its early returns. -/
def addContainerReferenceToImageState (states : List ImageState)
    (c : Container) (inspect : Except String InspectedImage) (now : Int) :
    List ImageState × Option String :=
  if c.Image = "" then
    (states, some "Invalid container reference: Empty image name")
  else
    match inspect with
    | .error e => (states, some e)
    | .ok ii =>
        let states1 := removeExistingImageNameOfDifferentID states c.Image ii.ID
        match getImageState states1 ii.ID with
        | some _ =>
            let states2 := updateStateById states1 ii.ID (fun t =>
              let t1 := if hasImageName t c.Image then t else addImageName t c.Image
              updateContainerReference t1 c)
            (states2, none)
        | none =>
            let sourceImage : Image := { ImageId := ii.ID, Names := [], Size := ii.Size }
            let sourceImageState : ImageState :=
              { Image := sourceImage, Containers := [], PulledAt := now,
                LastUsedAt := 0 }
            let s1 := addImageName sourceImageState c.Image
            let s2 := updateContainerReference s1 c
            (states1 ++ [s2], none)

/-- Splice out the first container whose `Name` matches; the Go loop
returns right after the splice, so later duplicates survive. -/
def removeFirstContainerByName (cs : List Container) (name : String) :
    List Container :=
  match cs with
  | [] => []
  | c :: rest =>
      if c.Name = name then rest else c :: removeFirstContainerByName rest name

/-- Go `RemoveContainerReferenceFromImageState`. -/
def removeContainerReferenceFromImageState (states : List ImageState)
    (c : Container) (inspect : Except String InspectedImage) (now : Int) :
    List ImageState × Option String :=
  if c.Image = "" then
    (states, some "Invalid container reference: Empty image name")
  else
    match inspect with
    | .error e => (states, some e)
    | .ok ii =>
        match getImageState states ii.ID with
        | none =>
            (states, some "Cannot find image state for the container to be removed")
        | some s =>
            if s.Containers.any (fun t => t.Name = c.Name) then
              (updateStateById states ii.ID (fun t =>
                { t with Containers := removeFirstContainerByName t.Containers c.Name,
                         LastUsedAt := now }), none)
            else
              (states, some "Container reference is not found in the image state")

/-- Go `isImageOldEnough`: `time.Now().Sub(PulledAt) > minimumAgeBeforeDeletion`. -/
def isImageOldEnough (now : Int) (s : ImageState) : Bool :=
  decide (now - s.PulledAt > minimumAgeBeforeDeletion)

/-- Go `hasNoAssociatedContainers`: `len(Containers) == 0`. -/
def hasNoAssociatedContainers (s : ImageState) : Bool :=
  s.Containers.isEmpty

/-- Go `getCandidateImagesForDeletion`: keep the states that are old enough
and unreferenced (the early return for an empty inventory yields the same
empty list). -/
def getCandidateImagesForDeletion (now : Int) (states : List ImageState) :
    List ImageState :=
  states.filter (fun s => isImageOldEnough now s && hasNoAssociatedContainers s)

/-- The comparison `sort.Sort(ImageStatesForDeletion)` sorts by: the
relation used by `Less`, `LastUsedAt.Before`.  `sort.Sort` is any
comparison sort (permutation, sorted w.r.t. the relation); it is modelled
by insertion sort over the reflexive closure of that relation. -/
def lastUsedLe (a b : ImageState) : Prop := a.LastUsedAt ≤ b.LastUsedAt

instance : DecidableRel lastUsedLe := fun a b => by
  unfold lastUsedLe
  infer_instance

/-- Go `getLeastRecentlyUsedImages`: sort ascending by `LastUsedAt`, keep at
most `numImagesToDelete` from the front (the Go `if len <= 5 return all`
branch coincides with `take 5`). -/
def getLeastRecentlyUsedImages (imagesForDeletion : List ImageState) :
    List ImageState :=
  (List.insertionSort lastUsedLe imagesForDeletion).take numImagesToDelete

/-!
The cleanup sweep.  `removeImages` ranges over a slice header captured
before the loop (`imageNames := ...Image.Names`) while `deleteImage`
splices the same backing array in place, and `removeImageName` itself
ranges over a captured header while splicing.  Both loops are modelled
with an explicit backing array `arr` (whose length never changes) plus the
live slice length `live`; the captured header of a `range` loop is the
pair (backing array, length at capture time).  A Go slice expression
`Names[i+1:]` with `i+1 > len(Names)` panics; panics are propagated as
`none`.
-/

/-- Effect on the backing array of
`Names = append(Names[:i], Names[i+1:]...)` when `Names` has live length
`live` and `i < live`: positions `[i, live-1)` shift left by one,
position `live-1` keeps its old value, everything else is untouched. -/
def spliceAt (arr : List String) (i live : Nat) : List String :=
  arr.take i ++ ((arr.drop (i + 1)).take (live - 1 - i)) ++
    ((arr.drop (live - 1)).take 1) ++ arr.drop live

/-- The body of `removeImageName`'s `range` loop: `k` iterations remain,
`i` is the current index into the captured header, `arr` the backing
array, `live` the current length of `imageState.Image.Names`.  A match at
`i ≥ live` evaluates `Names[i+1:]` with `i+1 > live` and panics (`none`). -/
def removeImageNameAux (name : String) :
    Nat → Nat → List String → Nat → Option (List String × Nat)
  | 0, _, arr, live => some (arr, live)
  | k + 1, i, arr, live =>
      if arr.getD i "" = name then
        if i < live then
          removeImageNameAux name k (i + 1) (spliceAt arr i live) (live - 1)
        else
          none
      else
        removeImageNameAux name k (i + 1) arr live

/-- Go `removeImageName(containerImageName, imageState)` acting on a `Names`
slice with backing array `arr` and live length `live`; the loop header is
captured once, so it runs `live` iterations. -/
def removeImageNameGo (name : String) (arr : List String) (live : Nat) :
    Option (List String × Nat) :=
  removeImageNameAux name live 0 arr live

/-- The standalone `removeImageName` (and the `image` package's
`RemoveImageName`): the argument is the live contents of `Names`, the
result the live contents afterwards, `none` on panic. -/
def removeImageName (name : String) (names : List String) :
    Option (List String) :=
  (removeImageNameGo name names names.length).map (fun p => p.1.take p.2)

/-- State threaded through one selected image's processing during a sweep:
the image's `Names` backing array and live length, the manager's
inventory, the number of `saver.Save()` calls so far, and the trace of
`RemoveImage` calls in order. -/
structure SweepSt where
  arr : List String
  live : Nat
  inv : List ImageState
  saves : Nat
  calls : List String
deriving DecidableEq, Repr

/-- Write the processed image's current `Names` through to the inventory
entry holding it (pointer semantics: the inventory and the sweep loop
share the `ImageState` object). -/
def writeNames (st : SweepSt) (id : String) : List ImageState :=
  updateStateById st.inv id (fun s =>
    { s with Image := { s.Image with Names := st.arr.take st.live } })

/-- Go `deleteImage(taskEngine, imageIdentity, imageState)` for the image
with ID `id`.  `rmv identity` is the runtime's `RemoveImage` answer
(`none` = success, `some msg` = error with message `msg`).  On a
non-sentinel error the function returns having only issued the call; on
success or the "no such image" sentinel it strips the identity from the
in-memory state and, if the alias list is now empty, removes the state
from the inventory and invokes `Save()`. -/
def deleteImage (rmv : String → Option String) (id : String)
    (identity : String) (st : SweepSt) : Option SweepSt :=
  let st1 : SweepSt := { st with calls := st.calls ++ [identity] }
  let proceed : Bool :=
    match rmv identity with
    | none => true
    | some msg => msg = imageNotFoundErrorMessage
  if proceed then
    match removeImageNameGo identity st1.arr st1.live with
    | none => none
    | some (arr2, live2) =>
        let st2 : SweepSt := { st1 with arr := arr2, live := live2 }
        let st3 : SweepSt := { st2 with inv := writeNames st2 id }
        if live2 = 0 then
          some { st3 with inv := removeStateById st3.inv id,
                          saves := st3.saves + 1 }
        else
          some st3
  else
    some st1

/-- The alias loop of `removeImages` for one selected image: `k`
iterations remain over the captured header, `i` is the current index. -/
def removeImagesAux (rmv : String → Option String) (id : String) :
    Nat → Nat → SweepSt → Option SweepSt
  | 0, _, st => some st
  | k + 1, i, st =>
      match deleteImage rmv id (st.arr.getD i "") st with
      | none => none
      | some st2 => removeImagesAux rmv id k (i + 1) st2

/-- Processing of one selected image inside `removeImages`: an image with
no aliases is deleted by ID, otherwise once per entry of the captured
alias header. -/
def processImage (rmv : String → Option String) (s : ImageState)
    (inv : List ImageState) (saves : Nat) (calls : List String) :
    Option SweepSt :=
  let st0 : SweepSt :=
    { arr := s.Image.Names, live := s.Image.Names.length, inv := inv,
      saves := saves, calls := calls }
  if s.Image.Names.length = 0 then
    deleteImage rmv s.Image.ImageId s.Image.ImageId st0
  else
    removeImagesAux rmv s.Image.ImageId s.Image.Names.length 0 st0

/-- Go `removeImages`: process each selected image in order; the batch is
never aborted by a deletion error (only by a panic, which kills the
goroutine). -/
def removeImages (rmv : String → Option String)
    (leastRecentlyUsedImages : List ImageState) (inv : List ImageState)
    (saves : Nat) (calls : List String) :
    Option (List ImageState × Nat × List String) :=
  match leastRecentlyUsedImages with
  | [] => some (inv, saves, calls)
  | s :: rest =>
      match processImage rmv s inv saves calls with
      | none => none
      | some st => removeImages rmv rest st.inv st.saves st.calls

/-- Go `GetImageStateFromImageName`: first state (inventory order) whose
alias list contains the name. -/
def GetImageStateFromImageName (states : List ImageState)
    (containerImageName : String) : Option ImageState :=
  match states with
  | [] => none
  | s :: rest =>
      if containerImageName ∈ s.Image.Names then some s
      else GetImageStateFromImageName rest containerImageName

/-- Number of tracked states carrying a given image ID. -/
def countById (states : List ImageState) (id : String) : Nat :=
  match states with
  | [] => 0
  | s :: rest =>
      (if s.Image.ImageId = id then 1 else 0) + countById rest id

/-- Number of tracked states whose alias list holds a given name. -/
def holders (states : List ImageState) (n : String) : Nat :=
  match states with
  | [] => 0
  | s :: rest =>
      (if n ∈ s.Image.Names then 1 else 0) + holders rest n

/-- The `image` package variant (`ImageState.UpdateContainerReference`,
field `ImageID`): unlike the manager's `updateContainerReference`, it also
sets `LastUsedAt = time.Now()` when adding the reference. -/
def ImagePkgUpdateContainerReference (s : ImageState) (c : Container)
    (now : Int) : ImageState :=
  { s with Containers := s.Containers ++ [c], LastUsedAt := now }

/-! ### Helper lemmas about inventory lookup and first-match update -/

theorem getImageState_of_decomp (u : List ImageState) (s : ImageState)
    (v : List ImageState) (id : String)
    (hu : ∀ t ∈ u, t.Image.ImageId ≠ id) (hs : s.Image.ImageId = id) :
    getImageState (u ++ s :: v) id = some s := by
  induction u with
  | nil => simp [getImageState, hs]
  | cons t u ih =>
      have ht : t.Image.ImageId ≠ id := hu t (by simp)
      simp only [List.cons_append, getImageState, if_neg ht, List.append_eq]
      exact ih (fun x hx => hu x (by simp [hx]))

theorem getImageState_none_iff (states : List ImageState) (id : String) :
    getImageState states id = none ↔ ∀ s ∈ states, s.Image.ImageId ≠ id := by
  induction states with
  | nil => simp [getImageState]
  | cons t u ih =>
      by_cases ht : t.Image.ImageId = id
      · simp [getImageState, ht]
      · simp [getImageState, ht, ih]

theorem getImageState_decomp (states : List ImageState) (id : String)
    (s : ImageState) (h : getImageState states id = some s) :
    s.Image.ImageId = id ∧
      ∃ u v, states = u ++ s :: v ∧ ∀ t ∈ u, t.Image.ImageId ≠ id := by
  induction states with
  | nil => simp [getImageState] at h
  | cons t u ih =>
      by_cases ht : t.Image.ImageId = id
      · simp only [getImageState, if_pos ht] at h
        obtain rfl : t = s := by exact Option.some.inj h
        exact ⟨ht, [], u, rfl, by simp⟩
      · simp only [getImageState, if_neg ht] at h
        obtain ⟨h1, p, q, hpq, hp⟩ := ih h
        refine ⟨h1, t :: p, q, by simp [hpq], ?_⟩
        intro x hx
        rcases List.mem_cons.mp hx with hx | hx
        · exact hx ▸ ht
        · exact hp x hx

theorem updateStateById_of_decomp (u : List ImageState) (s : ImageState)
    (v : List ImageState) (id : String) (f : ImageState → ImageState)
    (hu : ∀ t ∈ u, t.Image.ImageId ≠ id) (hs : s.Image.ImageId = id) :
    updateStateById (u ++ s :: v) id f = u ++ f s :: v := by
  induction u with
  | nil => simp [updateStateById, hs]
  | cons t u ih =>
      have ht : t.Image.ImageId ≠ id := hu t (by simp)
      simp only [List.cons_append, updateStateById, if_neg ht, List.append_eq]
      rw [ih (fun x hx => hu x (by simp [hx]))]

theorem removeStateById_of_decomp (u : List ImageState) (s : ImageState)
    (v : List ImageState) (id : String)
    (hu : ∀ t ∈ u, t.Image.ImageId ≠ id) (hs : s.Image.ImageId = id) :
    removeStateById (u ++ s :: v) id = u ++ v := by
  induction u with
  | nil => simp [removeStateById, hs]
  | cons t u ih =>
      have ht : t.Image.ImageId ≠ id := hu t (by simp)
      simp only [List.cons_append, removeStateById, if_neg ht, List.append_eq]
      rw [ih (fun x hx => hu x (by simp [hx]))]

theorem removeFirstContainerByName_decomp (p : List Container)
    (c0 : Container) (q : List Container) (name : String)
    (hp : ∀ x ∈ p, x.Name ≠ name) (hc : c0.Name = name) :
    removeFirstContainerByName (p ++ c0 :: q) name = p ++ q := by
  induction p with
  | nil => simp [removeFirstContainerByName, hc]
  | cons t p ih =>
      have ht : t.Name ≠ name := hp t (by simp)
      simp only [List.cons_append, removeFirstContainerByName, if_neg ht, List.append_eq]
      rw [ih (fun x hx => hp x (by simp [hx]))]

theorem removeExisting_map (states : List ImageState) (n id : String)
    (f : ImageState → α)
    (hf : ∀ (s : ImageState) (names2 : List String),
      f { s with Image := { s.Image with Names := names2 } } = f s) :
    (removeExistingImageNameOfDifferentID states n id).map f = states.map f := by
  induction states with
  | nil => rfl
  | cons t rest ih =>
      by_cases hc : t.Image.ImageId ≠ id ∧ n ∈ t.Image.Names
      · simp only [removeExistingImageNameOfDifferentID, if_pos hc, List.map_cons]
        rw [hf]
      · simp only [removeExistingImageNameOfDifferentID, if_neg hc, List.map_cons, ih]

theorem updateStateById_map (states : List ImageState) (id : String)
    (g : ImageState → ImageState) (f : ImageState → α)
    (hf : ∀ s, f (g s) = f s) :
    (updateStateById states id g).map f = states.map f := by
  induction states with
  | nil => rfl
  | cons t rest ih =>
      by_cases hc : t.Image.ImageId = id
      · simp only [updateStateById, if_pos hc, List.map_cons, hf]
      · simp only [updateStateById, if_neg hc, List.map_cons, ih]

theorem removeExisting_length (states : List ImageState) (n id : String) :
    (removeExistingImageNameOfDifferentID states n id).length = states.length := by
  have h := removeExisting_map states n id (fun _ => (1 : Nat)) (fun _ _ => rfl)
  calc (removeExistingImageNameOfDifferentID states n id).length
      = ((removeExistingImageNameOfDifferentID states n id).map
          (fun _ => (1 : Nat))).length := by rw [List.length_map]
    _ = (states.map (fun _ => (1 : Nat))).length := by rw [h]
    _ = states.length := by rw [List.length_map]

theorem updateStateById_length (states : List ImageState) (id : String)
    (g : ImageState → ImageState) :
    (updateStateById states id g).length = states.length := by
  have h := updateStateById_map states id g (fun _ => (1 : Nat)) (fun _ => rfl)
  calc (updateStateById states id g).length
      = ((updateStateById states id g).map (fun _ => (1 : Nat))).length := by
        rw [List.length_map]
    _ = (states.map (fun _ => (1 : Nat))).length := by rw [h]
    _ = states.length := by rw [List.length_map]

/-! ### C10 -/

/-- C10: `GetImageStateFromImageName` returns the first tracked state, in
inventory order, whose alias list contains the name, and `none` exactly
when no tracked image holds the name.  The embedding is a pure function of
the inventory, reflecting that the Go code only reads under its lock. -/
theorem getImageStateFromImageName_spec (states : List ImageState)
    (name : String) :
    (GetImageStateFromImageName states name = none ↔
      ∀ s ∈ states, name ∉ s.Image.Names) ∧
    (∀ s, GetImageStateFromImageName states name = some s →
      name ∈ s.Image.Names ∧
        ∃ p q, states = p ++ s :: q ∧ ∀ t ∈ p, name ∉ t.Image.Names) := by
  induction states with
  | nil =>
      exact ⟨by simp [GetImageStateFromImageName],
        by simp [GetImageStateFromImageName]⟩
  | cons t rest ih =>
      by_cases hm : name ∈ t.Image.Names
      · refine ⟨by simp [GetImageStateFromImageName, hm], ?_⟩
        intro s hs
        simp only [GetImageStateFromImageName, if_pos hm] at hs
        obtain rfl : t = s := Option.some.inj hs
        exact ⟨hm, [], rest, rfl, by simp⟩
      · obtain ⟨ih1, ih2⟩ := ih
        refine ⟨?_, ?_⟩
        · simp only [GetImageStateFromImageName, if_neg hm]
          rw [ih1]
          constructor
          · intro h s hs
            rcases List.mem_cons.mp hs with rfl | hs
            · exact hm
            · exact h s hs
          · intro h s hs
            exact h s (by simp [hs])
        · intro s hs
          simp only [GetImageStateFromImageName, if_neg hm] at hs
          obtain ⟨h1, p, q, hpq, hp⟩ := ih2 s hs
          refine ⟨h1, t :: p, q, by simp [hpq], ?_⟩
          intro x hx
          rcases List.mem_cons.mp hx with rfl | hx
          · exact hm
          · exact hp x hx

/-- Concrete inventory entry used by witnesses. -/
def invAlpha : ImageState :=
  { Image := { ImageId := "id-a", Names := ["alpha"], Size := 1 },
    Containers := [], PulledAt := 0, LastUsedAt := 0 }

/-- Concrete inventory entry used by witnesses. -/
def invBeta : ImageState :=
  { Image := { ImageId := "id-b", Names := ["beta"], Size := 1 },
    Containers := [], PulledAt := 0, LastUsedAt := 0 }

theorem getImageStateFromImageName_spec_witness :
    "beta" ∈ invBeta.Image.Names ∧
      ∃ p q, [invAlpha, invBeta] = p ++ invBeta :: q ∧
        ∀ t ∈ p, "beta" ∉ t.Image.Names :=
  (getImageStateFromImageName_spec [invAlpha, invBeta] "beta").2 invBeta
    (by decide)

/-! ### C5 -/

/-- C5: every failing call of `AddContainerReferenceToImageState` or
`RemoveContainerReferenceFromImageState` — empty image name, runtime
inspection failure, untracked resolved ID, or no matching container
reference — returns a non-nil error with the inventory (and hence every
state in it) exactly as before the call. -/
theorem reference_ops_error_paths (states : List ImageState) (c : Container)
    (now : Int) :
    (∀ inspect, c.Image = "" →
      addContainerReferenceToImageState states c inspect now =
        (states, some "Invalid container reference: Empty image name")) ∧
    (∀ e, c.Image ≠ "" →
      addContainerReferenceToImageState states c (.error e) now =
        (states, some e)) ∧
    (∀ inspect, c.Image = "" →
      removeContainerReferenceFromImageState states c inspect now =
        (states, some "Invalid container reference: Empty image name")) ∧
    (∀ e, c.Image ≠ "" →
      removeContainerReferenceFromImageState states c (.error e) now =
        (states, some e)) ∧
    (∀ ii, c.Image ≠ "" → getImageState states ii.ID = none →
      removeContainerReferenceFromImageState states c (.ok ii) now =
        (states, some "Cannot find image state for the container to be removed")) ∧
    (∀ ii s, c.Image ≠ "" → getImageState states ii.ID = some s →
      (∀ t ∈ s.Containers, t.Name ≠ c.Name) →
      removeContainerReferenceFromImageState states c (.ok ii) now =
        (states, some "Container reference is not found in the image state")) := by
  refine ⟨?_, ?_, ?_, ?_, ?_, ?_⟩
  · intro inspect h
    simp [addContainerReferenceToImageState, h]
  · intro e h
    simp [addContainerReferenceToImageState, h]
  · intro inspect h
    simp [removeContainerReferenceFromImageState, h]
  · intro e h
    simp [removeContainerReferenceFromImageState, h]
  · intro ii h hnone
    simp [removeContainerReferenceFromImageState, h, hnone]
  · intro ii s h hsome hall
    have hany : s.Containers.any (fun t => t.Name = c.Name) = false := by
      simp only [List.any_eq_false]
      intro t ht
      simpa using hall t ht
    simp [removeContainerReferenceFromImageState, h, hsome, hany]

theorem reference_ops_error_paths_witness :
    addContainerReferenceToImageState [] { Name := "c1", Image := "" }
        (.error "x") 0 =
      ([], some "Invalid container reference: Empty image name") :=
  (reference_ops_error_paths [] { Name := "c1", Image := "" } 0).1
    (.error "x") rfl

/-! ### C7 -/

/-- Concrete state used by the C7 counterexample. -/
def c7state : ImageState :=
  { Image := { ImageId := "sha256:aaaa", Names := ["app:latest"], Size := 5 },
    Containers := [], PulledAt := 0, LastUsedAt := 0 }

/-- C7 counterexample: the `image` package's
`ImageState.UpdateContainerReference` (src/unnamed/part_006, lines 40-46)
sets `LastUsedAt = time.Now()` while adding a container reference, so the
claim that a container-reference addition leaves `LastUsedAt` at its prior
value is false for that cited function: here the prior value 0 becomes 7. -/
theorem updateContainerReference_variant_counterexample :
    (ImagePkgUpdateContainerReference c7state
        { Name := "c1", Image := "app:latest" } 7).LastUsedAt = 7 ∧
      c7state.LastUsedAt = 0 := by
  decide

/-- C7 amended: in the docker image manager itself
(`docker_image_manager.go`), adding a container reference — through
`AddContainerReferenceToImageState`, whose mutation of the found state is
its local `updateContainerReference` — leaves the `LastUsedAt` of every
previously tracked state at its prior value (a freshly created state gets
the zero time); only the `image` package variant's
`UpdateContainerReference` sets `LastUsedAt` to the current time on
addition. -/
theorem addRef_preserves_lastUsedAt (states : List ImageState)
    (c : Container) (inspect : Except String InspectedImage) (now : Int)
    (s : ImageState) (c2 : Container) :
    (((addContainerReferenceToImageState states c inspect now).1.map
        (fun t => t.LastUsedAt)).take states.length =
      states.map (fun t => t.LastUsedAt)) ∧
    (updateContainerReference s c2).LastUsedAt = s.LastUsedAt := by
  refine ⟨?_, rfl⟩
  by_cases h : c.Image = ""
  · simp [addContainerReferenceToImageState, h, List.take_length]
  · cases inspect with
    | error e =>
        simp [addContainerReferenceToImageState, h, List.take_length]
    | ok ii =>
        have hre : (removeExistingImageNameOfDifferentID states c.Image
            ii.ID).map (fun t => t.LastUsedAt) =
            states.map (fun t => t.LastUsedAt) :=
          removeExisting_map states c.Image ii.ID _ (fun _ _ => rfl)
        simp only [addContainerReferenceToImageState, if_neg h]
        cases hg : getImageState
            (removeExistingImageNameOfDifferentID states c.Image ii.ID)
            ii.ID with
        | some s0 =>
            simp only [hg]
            have hupd : (updateStateById
                (removeExistingImageNameOfDifferentID states c.Image ii.ID)
                ii.ID (fun t =>
                  updateContainerReference
                    (if hasImageName t c.Image then t
                     else addImageName t c.Image) c)).map
                (fun t => t.LastUsedAt) =
                (removeExistingImageNameOfDifferentID states c.Image
                  ii.ID).map (fun t => t.LastUsedAt) := by
              apply updateStateById_map
              intro t
              by_cases hh : hasImageName t c.Image
              · simp [hh, updateContainerReference]
              · simp [hh, updateContainerReference, addImageName]
            rw [hupd, hre]
            have hlen : states.length = (states.map
                (fun t => t.LastUsedAt)).length := by
              rw [List.length_map]
            rw [hlen, List.take_length]
        | none =>
            simp only [hg]
            rw [List.map_append, hre]
            have hlen : states.length = (states.map
                (fun t => t.LastUsedAt)).length := by
              rw [List.length_map]
            rw [hlen, List.take_left]

theorem addRef_preserves_lastUsedAt_witness :
    (((addContainerReferenceToImageState [invAlpha]
        { Name := "c1", Image := "alpha" } (.ok { ID := "id-a", Size := 1 })
        9).1.map (fun t => t.LastUsedAt)).take [invAlpha].length =
      [invAlpha].map (fun t => t.LastUsedAt)) ∧
    (updateContainerReference invAlpha
      { Name := "c1", Image := "alpha" }).LastUsedAt = invAlpha.LastUsedAt :=
  addRef_preserves_lastUsedAt [invAlpha] { Name := "c1", Image := "alpha" }
    (.ok { ID := "id-a", Size := 1 }) 9 invAlpha
    { Name := "c1", Image := "alpha" }

/-! ### C9 counterexample and C4 counterexample -/

/-- C9 counterexample: `removeImageName` does not remove all occurrences
of a duplicated name — on `["X", "X"]` the second iteration of the
captured `range` loop finds "X" at index 1 while the live slice has
length 1, so the splice evaluates `Names[2:]` on a length-1 slice and the
call panics (modelled as `none`) instead of returning `[]`. -/
theorem removeImageName_duplicates_counterexample :
    removeImageName "X" ["X", "X"] = none ∧
      removeImageName "X" ["X", "X"] ≠ some [] := by
  decide

/-- Selected image used by the C4 counterexample: four aliases, the
runtime rejects the delete of "A" with an error other than the
"no such image" sentinel and accepts every other delete. -/
def c4image : ImageState :=
  { Image := { ImageId := "id1", Names := ["A", "B", "C", "D"], Size := 10 },
    Containers := [], PulledAt := 0, LastUsedAt := 0 }

/-- C4 counterexample: processing `c4image` issues the RemoveImage calls
["A", "B", "D", "D"] — alias "C" is never passed to the runtime, alias
"D" is passed twice (the loop ranges over a header captured before the
in-place splices), and processing of the image continues past the failed
"A" delete (the "B" call happens) instead of aborting; the final alias
list is ["A", "C"], not the claim's ["A", "B", "C", "D"]. -/
theorem removeImages_claim_counterexample :
    removeImages (fun x => if x = "A" then some "boom" else none)
        [c4image] [c4image] 0 [] =
      some ([{ Image := { ImageId := "id1", Names := ["A", "C"], Size := 10 },
               Containers := [], PulledAt := 0, LastUsedAt := 0 }], 0,
        ["A", "B", "D", "D"]) ∧
      "C" ∉ (["A", "B", "D", "D"] : List String) ∧
      (["A", "B", "D", "D"] : List String).count "D" = 2 := by
  decide

/-! ### C2 -/

instance : IsTotal ImageState lastUsedLe :=
  ⟨fun a b => Int.le_total a.LastUsedAt b.LastUsedAt⟩

instance : IsTrans ImageState lastUsedLe :=
  ⟨fun _ _ _ h1 h2 => le_trans h1 h2⟩

/-- C2: a state is a deletion candidate iff `now - PulledAt` strictly
exceeds `minimumAgeBeforeDeletion` and its container list is empty
(`LastUsedAt` does not occur in the candidacy condition); the selected
images are at most `numImagesToDelete` states in ascending `LastUsedAt`
order drawn from the candidates, all of them when there are fewer than
the quota. -/
theorem cleanup_candidates_and_lru (now : Int) (states : List ImageState) :
    (∀ s, s ∈ getCandidateImagesForDeletion now states ↔
      s ∈ states ∧ now - s.PulledAt > minimumAgeBeforeDeletion ∧
        s.Containers = []) ∧
    List.Sorted lastUsedLe
      (getLeastRecentlyUsedImages (getCandidateImagesForDeletion now states)) ∧
    (getLeastRecentlyUsedImages (getCandidateImagesForDeletion now states)).length =
      min numImagesToDelete (getCandidateImagesForDeletion now states).length ∧
    (∀ s ∈ getLeastRecentlyUsedImages (getCandidateImagesForDeletion now states),
      s ∈ getCandidateImagesForDeletion now states) ∧
    ((getCandidateImagesForDeletion now states).length ≤ numImagesToDelete →
      (getLeastRecentlyUsedImages (getCandidateImagesForDeletion now states)).Perm
        (getCandidateImagesForDeletion now states)) := by
  refine ⟨?_, ?_, ?_, ?_, ?_⟩
  · intro s
    simp [getCandidateImagesForDeletion, List.mem_filter, isImageOldEnough,
      hasNoAssociatedContainers, List.isEmpty_iff, and_assoc]
  · exact List.Pairwise.take (List.sorted_insertionSort lastUsedLe _)
  · rw [getLeastRecentlyUsedImages, List.length_take,
      (List.perm_insertionSort lastUsedLe _).length_eq]
  · intro s hs
    have h1 : s ∈ List.insertionSort lastUsedLe
        (getCandidateImagesForDeletion now states) :=
      List.take_subset _ _ hs
    exact (List.perm_insertionSort lastUsedLe _).mem_iff.mp h1
  · intro hle
    have hlen : (List.insertionSort lastUsedLe
        (getCandidateImagesForDeletion now states)).length ≤
        numImagesToDelete := by
      rw [(List.perm_insertionSort lastUsedLe _).length_eq]
      exact hle
    rw [getLeastRecentlyUsedImages, List.take_of_length_le hlen]
    exact List.perm_insertionSort lastUsedLe _

theorem cleanup_candidates_and_lru_witness :
    invAlpha ∈ getCandidateImagesForDeletion 7200000000000 [invAlpha] ∧
      (getLeastRecentlyUsedImages
        (getCandidateImagesForDeletion 7200000000000 [invAlpha])).Perm
        (getCandidateImagesForDeletion 7200000000000 [invAlpha]) := by
  have h := cleanup_candidates_and_lru 7200000000000 [invAlpha]
  refine ⟨(h.1 invAlpha).mpr ⟨by decide, by decide, rfl⟩, ?_⟩
  exact h.2.2.2.2 (by decide)

/-! ### Counting lemmas -/

theorem countById_append (u v : List ImageState) (id : String) :
    countById (u ++ v) id = countById u id + countById v id := by
  induction u with
  | nil => simp [countById]
  | cons t u ih => simp [countById, ih]; omega

theorem countById_eq_zero_iff (states : List ImageState) (id : String) :
    countById states id = 0 ↔ ∀ s ∈ states, s.Image.ImageId ≠ id := by
  induction states with
  | nil => simp [countById]
  | cons t u ih =>
      by_cases ht : t.Image.ImageId = id
      · simp [countById, ht]
      · simp [countById, ht, ih]

theorem countById_removeExisting (states : List ImageState) (n id id2 : String) :
    countById (removeExistingImageNameOfDifferentID states n id) id2 =
      countById states id2 := by
  induction states with
  | nil => rfl
  | cons t rest ih =>
      by_cases hc : t.Image.ImageId ≠ id ∧ n ∈ t.Image.Names
      · simp [removeExistingImageNameOfDifferentID, if_pos hc, countById]
      · simp only [removeExistingImageNameOfDifferentID, if_neg hc, countById, ih]

theorem countById_updateStateById (states : List ImageState) (id id2 : String)
    (f : ImageState → ImageState)
    (hf : ∀ s, (f s).Image.ImageId = s.Image.ImageId) :
    countById (updateStateById states id f) id2 = countById states id2 := by
  induction states with
  | nil => rfl
  | cons t rest ih =>
      by_cases hc : t.Image.ImageId = id
      · simp [updateStateById, if_pos hc, countById, hf]
      · simp only [updateStateById, if_neg hc, countById, ih]

theorem getImageState_removeExisting (states : List ImageState)
    (n id : String) :
    getImageState (removeExistingImageNameOfDifferentID states n id) id =
      getImageState states id := by
  induction states with
  | nil => rfl
  | cons t rest ih =>
      by_cases hc : t.Image.ImageId ≠ id ∧ n ∈ t.Image.Names
      · obtain ⟨ht, hm⟩ := hc
        simp [removeExistingImageNameOfDifferentID, ht, hm, getImageState]
      · by_cases ht : t.Image.ImageId = id
        · simp [removeExistingImageNameOfDifferentID, if_neg hc, getImageState, ht]
        · simp only [removeExistingImageNameOfDifferentID, if_neg hc,
            getImageState, if_neg ht, ih]

theorem getImageState_append_of_none (u v : List ImageState) (id : String)
    (h : getImageState u id = none) :
    getImageState (u ++ v) id = getImageState v id := by
  induction u with
  | nil => rfl
  | cons t u ih =>
      by_cases ht : t.Image.ImageId = id
      · simp [getImageState, ht] at h
      · simp only [getImageState, if_neg ht] at h
        simp only [List.cons_append, getImageState, if_neg ht]
        exact ih h

/-! ### C3 -/

/-- C3: when the container's image resolves to a tracked state holding at
least one reference with the container's name, the remove call succeeds,
splices out exactly the first matching reference (the earlier entries `p`
carry different names), stamps `LastUsedAt` with the time sampled during
the call, and leaves every other reference, every other field of the
state, and every other tracked state unchanged. -/
theorem removeContainerReference_success (u : List ImageState)
    (s : ImageState) (v : List ImageState) (c : Container)
    (ii : InspectedImage) (now : Int) (p : List Container) (c0 : Container)
    (q : List Container)
    (himg : c.Image ≠ "")
    (hu : ∀ t ∈ u, t.Image.ImageId ≠ ii.ID)
    (hs : s.Image.ImageId = ii.ID)
    (hcs : s.Containers = p ++ c0 :: q)
    (hc0 : c0.Name = c.Name)
    (hp : ∀ x ∈ p, x.Name ≠ c.Name) :
    removeContainerReferenceFromImageState (u ++ s :: v) c (.ok ii) now =
      (u ++ ({ s with Containers := p ++ q, LastUsedAt := now }) :: v,
        none) := by
  have hget := getImageState_of_decomp u s v ii.ID hu hs
  have hany : s.Containers.any (fun t => t.Name = c.Name) = true := by
    rw [hcs]
    simp only [List.any_eq_true]
    exact ⟨c0, by simp, by simp [hc0]⟩
  have hrfc : removeFirstContainerByName s.Containers c.Name = p ++ q := by
    rw [hcs]
    exact removeFirstContainerByName_decomp p c0 q c.Name hp hc0
  simp only [removeContainerReferenceFromImageState, if_neg himg, hget, hany,
    if_true]
  rw [updateStateById_of_decomp u s v ii.ID _ hu hs, hrfc]

/-- Concrete tracked state for the C3 witness. -/
def c3state : ImageState :=
  { Image := { ImageId := "id-c3", Names := ["img3"], Size := 2 },
    Containers := [{ Name := "c1", Image := "img3" }], PulledAt := 0,
    LastUsedAt := 0 }

theorem removeContainerReference_success_witness :
    removeContainerReferenceFromImageState [c3state]
        { Name := "c1", Image := "img3" } (.ok { ID := "id-c3", Size := 2 })
        11 =
      ([{ c3state with Containers := [], LastUsedAt := 11 }], none) :=
  removeContainerReference_success [] c3state [] { Name := "c1", Image := "img3" }
    { ID := "id-c3", Size := 2 } 11 [] { Name := "c1", Image := "img3" } []
    (by decide) (by simp) rfl rfl rfl (by simp)

/-! ### C1 -/

/-- C1: with a non-empty image reference and a successful inspection
returning ID `ii.ID`, the add call succeeds and afterwards the inventory
holds exactly one state with that ID (provided it held at most one
before, which every reachable inventory does); the lookup for the ID
yields a state containing the container reference and the image name.
If the ID was untracked a fresh state with the inspected ID and size and
`PulledAt = now` was appended; otherwise the tracked state was reused,
the reference appended, and the alias added only if missing. -/
theorem addContainerReference_success (states : List ImageState)
    (c : Container) (ii : InspectedImage) (now : Int)
    (himg : c.Image ≠ "")
    (hcount : countById states ii.ID ≤ 1) :
    (addContainerReferenceToImageState states c (.ok ii) now).2 = none ∧
    countById (addContainerReferenceToImageState states c (.ok ii) now).1
      ii.ID = 1 ∧
    ∃ s, getImageState
        (addContainerReferenceToImageState states c (.ok ii) now).1 ii.ID =
          some s ∧
      c ∈ s.Containers ∧ c.Image ∈ s.Image.Names ∧
      (getImageState states ii.ID = none →
        s.Image.ImageId = ii.ID ∧ s.Image.Size = ii.Size ∧ s.PulledAt = now ∧
        (addContainerReferenceToImageState states c (.ok ii) now).1.length =
          states.length + 1) ∧
      (∀ s0, getImageState states ii.ID = some s0 →
        (addContainerReferenceToImageState states c (.ok ii) now).1.length =
          states.length ∧
        s.Containers = s0.Containers ++ [c] ∧
        s.Image.Names = (if c.Image ∈ s0.Image.Names then s0.Image.Names
          else s0.Image.Names ++ [c.Image])) := by
  have hre := getImageState_removeExisting states c.Image ii.ID
  have hrecount := countById_removeExisting states c.Image ii.ID ii.ID
  have hrelen := removeExisting_length states c.Image ii.ID
  cases hg : getImageState states ii.ID with
  | none =>
      have hnone1 : getImageState
          (removeExistingImageNameOfDifferentID states c.Image ii.ID) ii.ID =
          none := by rw [hre, hg]
      have hzero : countById
          (removeExistingImageNameOfDifferentID states c.Image ii.ID) ii.ID =
          0 := by
        rw [hrecount]
        exact (countById_eq_zero_iff states ii.ID).mpr
          ((getImageState_none_iff states ii.ID).mp hg)
      simp only [addContainerReferenceToImageState, if_neg himg, hnone1]
      refine ⟨by trivial, ?_, ?_⟩
      · rw [countById_append, hzero]
        simp [countById, updateContainerReference, addImageName]
      · refine ⟨updateContainerReference
          (addImageName
            { Image := { ImageId := ii.ID, Names := [], Size := ii.Size },
              Containers := [], PulledAt := now, LastUsedAt := 0 } c.Image) c,
          ?_, ?_, ?_, ?_, ?_⟩
        · rw [getImageState_append_of_none _ _ _ hnone1]
          simp [getImageState, updateContainerReference, addImageName]
        · simp [updateContainerReference, addImageName]
        · simp [updateContainerReference, addImageName]
        · intro _
          refine ⟨rfl, rfl, rfl, ?_⟩
          simp only [List.length_append, hrelen, List.length_cons,
            List.length_nil]
        · intro s0 h0
          exact absurd h0 (by simp)
  | some s0 =>
      have hsome1 : getImageState
          (removeExistingImageNameOfDifferentID states c.Image ii.ID) ii.ID =
          some s0 := by rw [hre, hg]
      obtain ⟨hid0, u, v, hdecomp, hufree⟩ :=
        getImageState_decomp _ ii.ID s0 hsome1
      have hcount1 : countById
          (removeExistingImageNameOfDifferentID states c.Image ii.ID) ii.ID ≤
          1 := by rw [hrecount]; exact hcount
      have huv : countById u ii.ID = 0 ∧ countById v ii.ID = 0 := by
        rw [hdecomp, countById_append] at hcount1
        simp [countById, hid0] at hcount1
        omega
      simp only [addContainerReferenceToImageState, if_neg himg, hsome1]
      have hupd : updateStateById
          (removeExistingImageNameOfDifferentID states c.Image ii.ID) ii.ID
          (fun t =>
            updateContainerReference
              (if hasImageName t c.Image then t else addImageName t c.Image)
              c) =
          u ++ (updateContainerReference
            (if hasImageName s0 c.Image then s0 else addImageName s0 c.Image)
            c) :: v := by
        rw [hdecomp]
        exact updateStateById_of_decomp u s0 v ii.ID _ hufree hid0
      refine ⟨by trivial, ?_, ?_⟩
      · rw [hupd, countById_append]
        have : (updateContainerReference
            (if hasImageName s0 c.Image then s0 else addImageName s0 c.Image)
            c).Image.ImageId = ii.ID := by
          by_cases hm : hasImageName s0 c.Image
          · simp [hm, updateContainerReference, hid0]
          · simp [hm, updateContainerReference, addImageName, hid0]
        obtain ⟨hu0, hv0⟩ := huv
        simp [countById, this]
        omega
      · refine ⟨updateContainerReference
          (if hasImageName s0 c.Image then s0 else addImageName s0 c.Image) c,
          ?_, ?_, ?_, ?_, ?_⟩
        · rw [hupd]
          apply getImageState_of_decomp u _ v ii.ID hufree
          by_cases hm : hasImageName s0 c.Image
          · simp [hm, updateContainerReference, hid0]
          · simp [hm, updateContainerReference, addImageName, hid0]
        · simp [updateContainerReference]
        · by_cases hm : c.Image ∈ s0.Image.Names
          · simp [updateContainerReference, hasImageName, hm]
          · simp [updateContainerReference, hasImageName, hm, addImageName]
        · intro h0
          exact absurd h0 (by simp)
        · intro s1 h1
          obtain rfl : s0 = s1 := Option.some.inj h1
          refine ⟨?_, ?_, ?_⟩
          · rw [hupd]
            have h2 : (u ++ (updateContainerReference
                (if hasImageName s0 c.Image then s0
                 else addImageName s0 c.Image) c) :: v).length =
                (u ++ s0 :: v).length := by
              simp
            rw [h2, ← hdecomp, hrelen]
          · simp [updateContainerReference]
            by_cases hm : hasImageName s0 c.Image
            · simp [hm]
            · simp [hm, addImageName]
          · by_cases hm : c.Image ∈ s0.Image.Names
            · simp [updateContainerReference, hasImageName, hm]
            · simp [updateContainerReference, hasImageName, hm, addImageName]

theorem addContainerReference_success_witness :
    (addContainerReferenceToImageState [] { Name := "c1", Image := "img1" }
        (.ok { ID := "id1", Size := 3 }) 5).2 = none ∧
      countById (addContainerReferenceToImageState []
        { Name := "c1", Image := "img1" } (.ok { ID := "id1", Size := 3 })
        5).1 "id1" = 1 :=
  ⟨(addContainerReference_success [] { Name := "c1", Image := "img1" }
      { ID := "id1", Size := 3 } 5 (by decide) (by decide)).1,
   (addContainerReference_success [] { Name := "c1", Image := "img1" }
      { ID := "id1", Size := 3 } 5 (by decide) (by decide)).2.1⟩

/-! ### Indexed reads -/

theorem getD_append_left (xs ys : List String) (j : Nat) (h : j < xs.length) :
    (xs ++ ys).getD j "" = xs.getD j "" := by
  induction xs generalizing j with
  | nil => simp at h
  | cons x xs ih =>
      cases j with
      | zero => rfl
      | succ j =>
          simp only [List.cons_append, List.getD_cons_succ]
          exact ih j (by simpa using h)

theorem getD_append_right (xs ys : List String) (j : Nat)
    (h : xs.length ≤ j) :
    (xs ++ ys).getD j "" = ys.getD (j - xs.length) "" := by
  induction xs generalizing j with
  | nil => simp
  | cons x xs ih =>
      cases j with
      | zero => simp at h
      | succ j =>
          simp only [List.cons_append, List.getD_cons_succ, List.length_cons]
          rw [ih j (by simpa using h)]
          congr 1
          omega

theorem getD_mem (xs : List String) (j : Nat) (h : j < xs.length) :
    xs.getD j "" ∈ xs := by
  induction xs generalizing j with
  | nil => simp at h
  | cons x xs ih =>
      cases j with
      | zero => simp
      | succ j =>
          simp only [List.getD_cons_succ]
          exact List.mem_cons_of_mem x (ih j (by simpa using h))

theorem getD_take_eq (arr : List String) (live j : Nat) (hj : j < live) :
    arr.getD j "" = (arr.take live).getD j "" := by
  induction arr generalizing j live with
  | nil => simp
  | cons x xs ih =>
      cases live with
      | zero => omega
      | succ live =>
          cases j with
          | zero => rfl
          | succ j =>
              simp only [List.take_succ_cons, List.getD_cons_succ]
              exact ih live j (by omega)

/-! ### The stale-header removal loop -/

theorem removeImageNameAux_no_match (name : String) (k : Nat) :
    ∀ (i : Nat) (arr : List String) (live : Nat),
      (∀ j, i ≤ j → j < i + k → arr.getD j "" ≠ name) →
      removeImageNameAux name k i arr live = some (arr, live) := by
  induction k with
  | zero => intro i arr live _; rfl
  | succ k ih =>
      intro i arr live h
      have hi : arr.getD i "" ≠ name := h i (le_refl i) (by omega)
      simp only [removeImageNameAux, if_neg hi]
      exact ih (i + 1) arr live (fun j h1 h2 => h j (by omega) (by omega))

theorem removeImageNameAux_skip (name : String) (m : Nat) :
    ∀ (k i : Nat) (arr : List String) (live : Nat), m ≤ k →
      (∀ j, i ≤ j → j < i + m → arr.getD j "" ≠ name) →
      removeImageNameAux name k i arr live =
        removeImageNameAux name (k - m) (i + m) arr live := by
  induction m with
  | zero => intro k i arr live _ _; simp
  | succ m ih =>
      intro k i arr live hm h
      cases k with
      | zero => omega
      | succ k =>
          have hi : arr.getD i "" ≠ name := h i (le_refl i) (by omega)
          simp only [removeImageNameAux, if_neg hi]
          rw [ih k (i + 1) arr live (by omega)
            (fun j h1 h2 => h j (by omega) (by omega))]
          rw [(by omega : i + 1 + m = i + (m + 1)),
            (by omega : k + 1 - (m + 1) = k - m)]

theorem first_occ_decomp (name : String) (l : List String) (h : name ∈ l) :
    ∃ p q, l = p ++ name :: q ∧ name ∉ p := by
  induction l with
  | nil => simp at h
  | cons x xs ih =>
      by_cases hx : x = name
      · exact ⟨[], xs, by simp [hx], by simp⟩
      · have hmem : name ∈ xs := by
          rcases List.mem_cons.mp h with h1 | h1
          · exact absurd h1.symm hx
          · exact h1
        obtain ⟨p, q, hpq, hnp⟩ := ih hmem
        refine ⟨x :: p, q, by simp [hpq], ?_⟩
        intro hcon
        rcases List.mem_cons.mp hcon with h1 | h1
        · exact hx h1.symm
        · exact hnp h1

theorem drop_len_add (xs ys : List String) (n : Nat) :
    (xs ++ ys).drop (xs.length + n) = ys.drop n := by
  induction xs with
  | nil => simp
  | cons x xs ih =>
      simp only [List.cons_append, List.length_cons]
      rw [(by omega : xs.length + 1 + n = xs.length + n + 1),
        List.drop_succ_cons]
      exact ih

theorem drop_append_le (xs ys : List String) (n : Nat) (h : n ≤ xs.length) :
    (xs ++ ys).drop n = xs.drop n ++ ys := by
  induction xs generalizing n with
  | nil =>
      have : n = 0 := by simpa using h
      simp [this]
  | cons x xs ih =>
      cases n with
      | zero => simp
      | succ n => simpa using ih n (by simpa using h)

/-- Characterization of `removeImageName`'s loop when the name occurs at
most once in the live slice: no panic, the live contents lose their first
(only) occurrence of the name, the backing array keeps its length, and no
new strings appear. -/
theorem removeImageNameGo_spec (name : String) (arr : List String)
    (live : Nat) (hl : live ≤ arr.length)
    (hcnt : (arr.take live).count name ≤ 1) :
    ∃ arr2, removeImageNameGo name arr live =
        some (arr2, if name ∈ arr.take live then live - 1 else live) ∧
      arr2.take (if name ∈ arr.take live then live - 1 else live) =
        (arr.take live).erase name ∧
      arr2.length = arr.length ∧ (∀ x ∈ arr2, x ∈ arr) := by
  by_cases hm : name ∈ arr.take live
  · obtain ⟨p, q, hpq, hnp⟩ := first_occ_decomp name (arr.take live) hm
    have hnq : name ∉ q := by
      intro hq
      have h2 : 1 ≤ q.count name := List.one_le_count_iff.mpr hq
      have h1 : 1 < (arr.take live).count name := by
        rw [hpq, List.count_append, List.count_cons]
        simp
        omega
      omega
    have hlive : live = p.length + 1 + q.length := by
      have h1 : (arr.take live).length = live := by
        rw [List.length_take]
        omega
      rw [hpq] at h1
      simp at h1
      omega
    have harr : arr = (p ++ name :: q) ++ arr.drop live := by
      rw [← hpq, List.take_append_drop]
    have harr2 : arr = p ++ name :: (q ++ arr.drop live) := by
      conv =>
        lhs
        rw [harr]
      simp
    have hA : ∀ j, 0 ≤ j → j < 0 + p.length → arr.getD j "" ≠ name := by
      intro j _ hj
      have hj2 : j < p.length := by omega
      rw [harr2, getD_append_left _ _ j hj2]
      intro hcon
      exact hnp (hcon ▸ getD_mem p j hj2)
    have hread : arr.getD p.length "" = name := by
      rw [harr2, getD_append_right p _ p.length (le_refl p.length)]
      simp
    have hrun1 : removeImageNameGo name arr live =
        removeImageNameAux name (live - p.length) (0 + p.length) arr live := by
      unfold removeImageNameGo
      exact removeImageNameAux_skip name p.length live 0 arr live
        (by omega) hA
    have hstep : removeImageNameAux name (live - p.length) (0 + p.length) arr
        live = removeImageNameAux name q.length (p.length + 1)
          (spliceAt arr p.length live) (live - 1) := by
      rw [(by omega : live - p.length = q.length + 1),
        (by omega : 0 + p.length = p.length)]
      simp only [removeImageNameAux]
      rw [if_pos hread, if_pos (by omega : p.length < live)]
    have hsplice : spliceAt arr p.length live =
        p ++ q ++ (name :: q).drop q.length ++ arr.drop live := by
      have c1 : arr.take p.length = p := by
        rw [harr2, List.take_left]
      have c2 : arr.drop (p.length + 1) = q ++ arr.drop live := by
        conv =>
          lhs
          rw [harr2, (by simp : p.length + 1 = (p ++ [name]).length),
            (by simp : p ++ name :: (q ++ arr.drop live) =
              (p ++ [name]) ++ (q ++ arr.drop live))]
        rw [List.drop_left]
      have c3 : (q ++ arr.drop live).take (live - 1 - p.length) = q := by
        rw [(by omega : live - 1 - p.length = q.length), List.take_left]
      have c4 : (arr.drop (live - 1)).take 1 = (name :: q).drop q.length := by
        have d1 : arr.drop (live - 1) = (name :: q).drop q.length ++
            arr.drop live := by
          conv =>
            lhs
            rw [harr, (by omega : live - 1 = p.length + q.length)]
          rw [(by simp : (p ++ name :: q) ++ arr.drop live =
            p ++ (name :: q ++ arr.drop live)), drop_len_add]
          exact drop_append_le (name :: q) (arr.drop live) q.length (by simp)
        have d2 : ((name :: q).drop q.length).length = 1 := by
          simp
        rw [d1, ← d2, List.take_left]
      unfold spliceAt
      rw [c1, c2, c3, c4]
    have hB : ∀ j, p.length + 1 ≤ j → j < p.length + 1 + q.length →
        (p ++ q ++ (name :: q).drop q.length ++ arr.drop live).getD j "" ≠
          name := by
      intro j hj1 hj2
      have hQ : 1 ≤ q.length := by omega
      rw [(by simp : p ++ q ++ (name :: q).drop q.length ++ arr.drop live =
        p ++ (q ++ ((name :: q).drop q.length ++ arr.drop live))),
        getD_append_right p _ j (by omega)]
      by_cases hcase : j - p.length < q.length
      · rw [getD_append_left _ _ _ hcase]
        intro hcon
        exact hnq (hcon ▸ getD_mem q _ hcase)
      · rw [getD_append_right q _ _ (by omega),
          (by omega : j - p.length - q.length = 0)]
        have hlast : (name :: q).drop q.length = q.drop (q.length - 1) := by
          cases q with
          | nil => simp at hQ
          | cons y ys =>
              simp only [List.length_cons, List.drop_succ_cons,
                Nat.add_sub_cancel]
        rw [hlast]
        have h0len : 0 < ((q.drop (q.length - 1)) ++ arr.drop live).length := by
          simp
          omega
        rw [getD_append_left _ _ 0 (by simp; omega)]
        intro hcon
        have hsub : q.drop (q.length - 1) ⊆ q := List.drop_subset _ _
        have h0l : 0 < (q.drop (q.length - 1)).length := by
          simp
          omega
        exact hnq (hsub (hcon ▸ getD_mem _ 0 h0l))
    have hrun2 : removeImageNameAux name q.length (p.length + 1)
        (spliceAt arr p.length live) (live - 1) =
        some (spliceAt arr p.length live, live - 1) := by
      apply removeImageNameAux_no_match
      rw [hsplice]
      exact hB
    refine ⟨spliceAt arr p.length live, ?_, ?_, ?_, ?_⟩
    · rw [hrun1, hstep, hrun2, if_pos hm]
    · rw [if_pos hm, hsplice, hpq]
      have e1 : (p ++ name :: q).erase name = p ++ q := by
        rw [List.erase_append_right _ hnp, List.erase_cons_head]
      rw [e1,
        (by simp : p ++ q ++ (name :: q).drop q.length ++ arr.drop live =
          (p ++ q) ++ ((name :: q).drop q.length ++ arr.drop live)),
        (by rw [List.length_append]; omega : live - 1 = (p ++ q).length),
        List.take_left]
    · rw [hsplice]
      conv =>
        rhs
        rw [harr2]
      simp
      omega
    · intro x hx
      rw [hsplice] at hx
      rw [harr2]
      simp only [List.mem_append, List.mem_cons] at hx ⊢
      rcases hx with ((hx | hx) | hx) | hx
      · exact Or.inl hx
      · exact Or.inr (Or.inr (Or.inl hx))
      · have hsub : x ∈ name :: q := List.drop_subset _ _ hx
        rcases List.mem_cons.mp hsub with h1 | h1
        · exact Or.inr (Or.inl h1)
        · exact Or.inr (Or.inr (Or.inl h1))
      · exact Or.inr (Or.inr (Or.inr hx))
  · have hAall : ∀ j, 0 ≤ j → j < 0 + live → arr.getD j "" ≠ name := by
      intro j _ hj
      have hj2 : j < live := by omega
      have hjlen : j < (arr.take live).length := by
        rw [List.length_take]
        omega
      rw [getD_take_eq arr live j hj2]
      intro hcon
      exact hm (hcon ▸ getD_mem _ j hjlen)
    refine ⟨arr, ?_, ?_, rfl, fun x hx => hx⟩
    · unfold removeImageNameGo
      rw [removeImageNameAux_no_match name live 0 arr live hAall, if_neg hm]
    · rw [if_neg hm]
      exact (List.erase_of_not_mem hm).symm

theorem drop_eq_getD_cons (xs : List String) (i : Nat) (h : i < xs.length) :
    xs.drop i = xs.getD i "" :: xs.drop (i + 1) := by
  induction xs generalizing i with
  | nil => simp at h
  | cons x xs ih =>
      cases i with
      | zero => rfl
      | succ i =>
          simp only [List.drop_succ_cons, List.getD_cons_succ]
          exact ih i (by simpa using h)

/-- One `deleteImage` call, whatever the runtime answers, returns (no
panic) when the live alias slice has no duplicates; it records exactly one
`RemoveImage` call, keeps the backing array's length and contents (as a
set), and preserves duplicate-freedom of the live slice. -/
theorem deleteImage_progress (rmv : String → Option String)
    (id identity : String) (st : SweepSt)
    (hnd : (st.arr.take st.live).Nodup) (hll : st.live ≤ st.arr.length) :
    ∃ st2, deleteImage rmv id identity st = some st2 ∧
      st2.calls = st.calls ++ [identity] ∧
      st2.arr.length = st.arr.length ∧ (∀ x ∈ st2.arr, x ∈ st.arr) ∧
      (st2.arr.take st2.live).Nodup ∧ st2.live ≤ st2.arr.length := by
  have hcnt : (st.arr.take st.live).count identity ≤ 1 :=
    List.nodup_iff_count_le_one.mp hnd identity
  obtain ⟨arr2, hgo, htake, hlen, hmem⟩ :=
    removeImageNameGo_spec identity st.arr st.live hll hcnt
  have hnd2 : (arr2.take
      (if identity ∈ st.arr.take st.live then st.live - 1 else st.live)).Nodup := by
    rw [htake]
    exact hnd.erase identity
  have hll2 : (if identity ∈ st.arr.take st.live then st.live - 1 else st.live) ≤
      arr2.length := by
    rw [hlen]
    by_cases hmm : identity ∈ st.arr.take st.live
    · rw [if_pos hmm]; omega
    · rw [if_neg hmm]; omega
  cases hr : rmv identity with
  | none =>
      simp only [deleteImage, hr, hgo, if_true]
      by_cases h0 : (if identity ∈ st.arr.take st.live then st.live - 1
          else st.live) = 0
      · rw [if_pos h0]
        exact ⟨_, rfl, rfl, hlen, hmem, hnd2, hll2⟩
      · rw [if_neg h0]
        exact ⟨_, rfl, rfl, hlen, hmem, hnd2, hll2⟩
  | some msg =>
      by_cases hs : msg = imageNotFoundErrorMessage
      · subst hs
        simp only [deleteImage, hr, hgo, decide_eq_true_eq, if_true,
          if_pos rfl]
        by_cases h0 : (if identity ∈ st.arr.take st.live then st.live - 1
            else st.live) = 0
        · rw [if_pos h0]
          exact ⟨_, rfl, rfl, hlen, hmem, hnd2, hll2⟩
        · rw [if_neg h0]
          exact ⟨_, rfl, rfl, hlen, hmem, hnd2, hll2⟩
      · have hdec : (decide (msg = imageNotFoundErrorMessage)) = false := by
          simp [hs]
        simp only [deleteImage, hr, hdec, if_false]
        exact ⟨_, rfl, rfl, rfl, fun x hx => hx, hnd, hll⟩

/-- A `deleteImage` call whose runtime answer is an error other than the
"no such image" sentinel records the call and changes nothing else. -/
theorem deleteImage_other_error (rmv : String → Option String)
    (id identity : String) (st : SweepSt) (m : String)
    (hm : rmv identity = some m) (hne : m ≠ imageNotFoundErrorMessage) :
    deleteImage rmv id identity st =
      some { st with calls := st.calls ++ [identity] } := by
  have hdec : (decide (m = imageNotFoundErrorMessage)) = false := by
    simp [hne]
  simp only [deleteImage, hm, hdec]
  rfl

/-- The alias loop when the runtime refuses every delete with a
non-sentinel error: it visits every position, records one call per
position, and changes nothing else. -/
theorem removeImagesAux_all_error (rmv : String → Option String)
    (id : String) (k : Nat) :
    ∀ (i : Nat) (st : SweepSt), i + k ≤ st.arr.length →
      (∀ j, i ≤ j → j < i + k →
        ∃ m, rmv (st.arr.getD j "") = some m ∧
          m ≠ imageNotFoundErrorMessage) →
      removeImagesAux rmv id k i st =
        some { st with calls := st.calls ++ (st.arr.drop i).take k } := by
  induction k with
  | zero =>
      intro i st _ _
      simp only [List.take_zero, List.append_nil]
      rfl
  | succ k ih =>
      intro i st hlen h
      obtain ⟨m, hm, hne⟩ := h i (le_refl _) (by omega)
      have hdel := deleteImage_other_error rmv id (st.arr.getD i "") st m
        hm hne
      simp only [removeImagesAux, hdel]
      rw [ih (i + 1) { st with
          calls := st.calls ++ [st.arr.getD i ""] } (by simpa using (by omega :
            i + 1 + k ≤ st.arr.length))
        (fun j h1 h2 => h j (by omega) (by omega))]
      have hsplit : (st.arr.drop i).take (k + 1) =
          st.arr.getD i "" :: (st.arr.drop (i + 1)).take k := by
        rw [drop_eq_getD_cons st.arr i (by omega)]
        rfl
      simp [hsplit]

/-- The alias loop never panics and only calls the runtime on strings that
were in the backing array, provided the live slice stays duplicate-free. -/
theorem removeImagesAux_nodup_progress (rmv : String → Option String)
    (id : String) (names0 : List String) (k : Nat) :
    ∀ (i : Nat) (st : SweepSt), i + k ≤ st.arr.length →
      (∀ x ∈ st.arr, x ∈ names0) →
      (st.arr.take st.live).Nodup → st.live ≤ st.arr.length →
      ∃ st2, removeImagesAux rmv id k i st = some st2 ∧
        ∀ x ∈ st2.calls, x ∈ st.calls ∨ x ∈ names0 := by
  induction k with
  | zero =>
      intro i st _ _ _ _
      exact ⟨st, rfl, fun x hx => Or.inl hx⟩
  | succ k ih =>
      intro i st hik hmem hnd hll
      obtain ⟨st1, hdel, hcalls, hlen, hmem1, hnd1, hll1⟩ :=
        deleteImage_progress rmv id (st.arr.getD i "") st hnd hll
      obtain ⟨st2, hrest, hcalls2⟩ := ih (i + 1) st1
        (by rw [hlen]; omega)
        (fun x hx => hmem x (hmem1 x hx)) hnd1 hll1
      refine ⟨st2, ?_, ?_⟩
      · simp only [removeImagesAux, hdel, hrest]
      · intro x hx
        rcases hcalls2 x hx with hx1 | hx1
        · rw [hcalls] at hx1
          rcases List.mem_append.mp hx1 with hx2 | hx2
          · exact Or.inl hx2
          · have : x = st.arr.getD i "" := by simpa using hx2
            exact Or.inr (hmem _ (this ▸ getD_mem st.arr i (by omega)))
        · exact Or.inr hx1

/-! ### C4 amended -/

/-- C4 amended: the sweep always continues with the remaining selected
images; an image with no aliases gets exactly one `RemoveImage` call,
using its image ID; for a non-empty alias list the loop walks the
positions of the alias header captured before the splices, issuing one
call per position for whatever string currently sits there (always one of
the image's original aliases, though with three or more aliases an alias
can be skipped or attempted twice); a call failing with a non-sentinel
error leaves the alias list unchanged at that step and the iteration
proceeds — in particular when every delete fails that way the aliases are
each attempted exactly once and left fully intact. -/
theorem removeImages_amended :
    (∀ (rmv : String → Option String) (s : ImageState)
        (inv : List ImageState) (saves : Nat) (calls : List String),
      s.Image.Names = [] →
      ∃ st2, processImage rmv s inv saves calls = some st2 ∧
        st2.calls = calls ++ [s.Image.ImageId]) ∧
    (∀ (rmv : String → Option String) (s : ImageState)
        (inv : List ImageState) (saves : Nat) (calls : List String),
      (∀ x ∈ s.Image.Names,
        ∃ m, rmv x = some m ∧ m ≠ imageNotFoundErrorMessage) →
      s.Image.Names ≠ [] →
      processImage rmv s inv saves calls =
        some { arr := s.Image.Names, live := s.Image.Names.length,
               inv := inv, saves := saves,
               calls := calls ++ s.Image.Names }) ∧
    (∀ (rmv : String → Option String) (s : ImageState)
        (inv : List ImageState) (saves : Nat) (calls : List String),
      s.Image.Names.Nodup →
      ∃ st2, processImage rmv s inv saves calls = some st2 ∧
        ∀ x ∈ st2.calls,
          x ∈ calls ∨ x ∈ s.Image.Names ∨ x = s.Image.ImageId) ∧
    (∀ (rmv : String → Option String) (sel inv : List ImageState)
        (saves : Nat) (calls : List String),
      (∀ s ∈ sel, s.Image.Names.Nodup) →
      ∃ out, removeImages rmv sel inv saves calls = some out) := by
  have hone : ∀ (rmv : String → Option String) (s : ImageState)
      (inv : List ImageState) (saves : Nat) (calls : List String),
      s.Image.Names.Nodup →
      ∃ st2, processImage rmv s inv saves calls = some st2 ∧
        ∀ x ∈ st2.calls,
          x ∈ calls ∨ x ∈ s.Image.Names ∨ x = s.Image.ImageId := by
    intro rmv s inv saves calls hnd
    by_cases hnil : s.Image.Names.length = 0
    · obtain ⟨st2, hdel, hcalls, _, _, _, _⟩ :=
        deleteImage_progress rmv s.Image.ImageId s.Image.ImageId
          { arr := s.Image.Names, live := s.Image.Names.length, inv := inv,
            saves := saves, calls := calls }
          (by simpa using hnd)
          (by simp)
      refine ⟨st2, ?_, ?_⟩
      · simp only [processImage, if_pos hnil]
        exact hdel
      · intro x hx
        rw [hcalls] at hx
        rcases List.mem_append.mp hx with hx1 | hx1
        · exact Or.inl hx1
        · exact Or.inr (Or.inr (by simpa using hx1))
    · obtain ⟨st2, hloop, hcalls⟩ :=
        removeImagesAux_nodup_progress rmv s.Image.ImageId s.Image.Names
          s.Image.Names.length 0
          { arr := s.Image.Names, live := s.Image.Names.length, inv := inv,
            saves := saves, calls := calls }
          (by simp) (fun x hx => hx)
          (by simpa using hnd) (by simp)
      refine ⟨st2, ?_, ?_⟩
      · simp only [processImage, if_neg hnil]
        exact hloop
      · intro x hx
        rcases hcalls x hx with hx1 | hx1
        · exact Or.inl hx1
        · exact Or.inr (Or.inl hx1)
  refine ⟨?_, ?_, hone, ?_⟩
  · intro rmv s inv saves calls hnil
    have hlen0 : s.Image.Names.length = 0 := by rw [hnil]; rfl
    obtain ⟨st2, hdel, hcalls, _, _, _, _⟩ :=
      deleteImage_progress rmv s.Image.ImageId s.Image.ImageId
        { arr := s.Image.Names, live := s.Image.Names.length, inv := inv,
          saves := saves, calls := calls }
        (by simp [hnil]) (by simp)
    refine ⟨st2, ?_, hcalls⟩
    simp only [processImage, if_pos hlen0]
    exact hdel
  · intro rmv s inv saves calls herr hne
    have hlen0 : ¬ s.Image.Names.length = 0 := by
      simpa using hne
    have hloop := removeImagesAux_all_error rmv s.Image.ImageId
      s.Image.Names.length 0
      { arr := s.Image.Names, live := s.Image.Names.length, inv := inv,
        saves := saves, calls := calls }
      (by simp)
      (fun j h1 h2 => herr _ (getD_mem s.Image.Names j (by simpa using h2)))
    simp only [processImage, if_neg hlen0]
    rw [hloop]
    simp
  · intro rmv sel
    induction sel with
    | nil => intro inv saves calls _; exact ⟨_, rfl⟩
    | cons s rest ih =>
        intro inv saves calls hnd
        obtain ⟨st2, hproc, _⟩ :=
          hone rmv s inv saves calls (hnd s (by simp))
        obtain ⟨out, hout⟩ := ih st2.inv st2.saves st2.calls
          (fun t ht => hnd t (by simp [ht]))
        refine ⟨out, ?_⟩
        simp only [removeImages, hproc, hout]

/-- Concrete selected image for the C4-amended witness. -/
def w4image : ImageState :=
  { Image := { ImageId := "id-w4", Names := ["n1", "n2"], Size := 1 },
    Containers := [], PulledAt := 0, LastUsedAt := 0 }

theorem removeImages_amended_witness :
    processImage (fun _ => some "boom") w4image [] 0 [] =
      some { arr := w4image.Image.Names, live := w4image.Image.Names.length,
             inv := [], saves := 0, calls := [] ++ w4image.Image.Names } :=
  removeImages_amended.2.1 (fun _ => some "boom") w4image [] 0 []
    (fun x _ => ⟨"boom", rfl, by decide⟩) (by decide)

/-! ### C8 -/

theorem deleteImage_proceed (rmv : String → Option String)
    (id identity : String) (st : SweepSt) (arr2 : List String) (live2 : Nat)
    (hok : rmv identity = none ∨
      rmv identity = some imageNotFoundErrorMessage)
    (hrm : removeImageNameGo identity st.arr st.live = some (arr2, live2)) :
    deleteImage rmv id identity st =
      if live2 = 0 then
        some { arr := arr2, live := live2,
               inv := removeStateById (updateStateById st.inv id (fun t =>
                 { t with Image :=
                     { t.Image with Names := arr2.take live2 } })) id,
               saves := st.saves + 1, calls := st.calls ++ [identity] }
      else
        some { arr := arr2, live := live2,
               inv := updateStateById st.inv id (fun t =>
                 { t with Image :=
                     { t.Image with Names := arr2.take live2 } }),
               saves := st.saves, calls := st.calls ++ [identity] } := by
  rcases hok with hr | hr
  · simp only [deleteImage, hr, hrm]
    rfl
  · have hd : (decide
        (imageNotFoundErrorMessage = imageNotFoundErrorMessage)) = true := by
      decide
    simp only [deleteImage, hr, hrm, hd]
    rfl

/-- C8: inside a sweep, a `deleteImage` call that strips the alias list to
zero entries removes the image's state from the inventory (no state with
that image ID remains, given the reachable at-most-one-per-ID invariant)
and bumps the `Save()` count by exactly one; a call after which the alias
list is still non-empty leaves the state tracked, with the written-through
alias list, and does not invoke `Save()`. -/
theorem deleteImage_purge_and_save (rmv : String → Option String)
    (id identity : String) (st : SweepSt) (s : ImageState)
    (arr2 : List String) (live2 : Nat)
    (htracked : getImageState st.inv id = some s)
    (hcount : countById st.inv id ≤ 1)
    (hok : rmv identity = none ∨
      rmv identity = some imageNotFoundErrorMessage)
    (hrm : removeImageNameGo identity st.arr st.live = some (arr2, live2)) :
    ∃ st2, deleteImage rmv id identity st = some st2 ∧
      st2.calls = st.calls ++ [identity] ∧
      (live2 = 0 → countById st2.inv id = 0 ∧ st2.saves = st.saves + 1) ∧
      (live2 ≠ 0 → st2.saves = st.saves ∧
        getImageState st2.inv id =
          some { s with Image :=
            { s.Image with Names := arr2.take live2 } }) := by
  obtain ⟨hid, u, v, hdecomp, hufree⟩ :=
    getImageState_decomp st.inv id s htracked
  have huv0 : countById u id = 0 ∧ countById v id = 0 := by
    rw [hdecomp, countById_append] at hcount
    simp [countById, hid] at hcount
    omega
  have hwrite : updateStateById st.inv id (fun t =>
      { t with Image := { t.Image with Names := arr2.take live2 } }) =
      u ++ ({ s with Image :=
        { s.Image with Names := arr2.take live2 } }) :: v := by
    rw [hdecomp]
    exact updateStateById_of_decomp u s v id _ hufree hid
  have hremove : removeStateById (u ++ ({ s with Image :=
      { s.Image with Names := arr2.take live2 } }) :: v) id = u ++ v :=
    removeStateById_of_decomp u _ v id hufree hid
  have hcuv : countById (u ++ v) id = 0 := by
    rw [countById_append]
    omega
  rw [deleteImage_proceed rmv id identity st arr2 live2 hok hrm]
  by_cases h0 : live2 = 0
  · rw [if_pos h0]
    refine ⟨_, rfl, rfl, fun _ => ⟨?_, rfl⟩, fun hcon => absurd h0 hcon⟩
    rw [hwrite, hremove]
    exact hcuv
  · rw [if_neg h0]
    refine ⟨_, rfl, rfl, fun hcon => absurd hcon h0, fun _ => ⟨rfl, ?_⟩⟩
    rw [hwrite]
    exact getImageState_of_decomp u _ v id hufree hid

/-- Concrete tracked state for the C8 witness. -/
def c8state : ImageState :=
  { Image := { ImageId := "id-w8", Names := ["w8name"], Size := 4 },
    Containers := [], PulledAt := 0, LastUsedAt := 0 }

/-- Concrete sweep state for the C8 witness. -/
def c8sweep : SweepSt :=
  { arr := ["w8name"], live := 1, inv := [c8state], saves := 0, calls := [] }

theorem deleteImage_purge_and_save_witness :
    ∃ st2, deleteImage (fun _ => none) "id-w8" "w8name" c8sweep = some st2 ∧
      st2.calls = c8sweep.calls ++ ["w8name"] ∧
      ((0 : Nat) = 0 → countById st2.inv "id-w8" = 0 ∧
        st2.saves = c8sweep.saves + 1) ∧
      ((0 : Nat) ≠ 0 → st2.saves = c8sweep.saves ∧
        getImageState st2.inv "id-w8" =
          some { c8state with Image :=
            { c8state.Image with Names := List.take 0 ["w8name"] } }) :=
  deleteImage_purge_and_save (fun _ => none) "id-w8" "w8name" c8sweep c8state
    ["w8name"] 0 (by decide) (by decide) (Or.inl rfl) (by decide)

/-! ### C9 amended -/

/-- C9 amended: when the name occurs at most once in the alias list —
which is every list the manager itself builds, since `addImageName` is
guarded by `hasImageName` — `removeImageName` removes that occurrence and
every other element survives in order (`List.erase` semantics); with
duplicated occurrences the in-place splice under the stale loop header can
instead panic, as the counterexample shows. -/
theorem removeImageName_single_occurrence (name : String)
    (names : List String) (h : names.count name ≤ 1) :
    removeImageName name names = some (names.erase name) := by
  obtain ⟨arr2, hgo, htake, hlen, hmem⟩ :=
    removeImageNameGo_spec name names names.length (le_refl _)
      (by simpa using h)
  simp only [List.take_length] at hgo htake
  unfold removeImageName
  rw [hgo]
  simp only [Option.map_some']
  exact congrArg some htake

theorem removeImageName_single_occurrence_witness :
    removeImageName "alpha" ["alpha", "beta"] =
      some (["alpha", "beta"].erase "alpha") :=
  removeImageName_single_occurrence "alpha" ["alpha", "beta"] (by decide)

/-! ### Holder counting for the alias-uniqueness invariant -/

theorem holders_append (u v : List ImageState) (n : String) :
    holders (u ++ v) n = holders u n + holders v n := by
  induction u with
  | nil => simp [holders]
  | cons t u ih => simp [holders, ih]; omega

theorem holders_eq_zero_iff (l : List ImageState) (n : String) :
    holders l n = 0 ↔ ∀ t ∈ l, n ∉ t.Image.Names := by
  induction l with
  | nil => simp [holders]
  | cons t l ih =>
      by_cases ht : n ∈ t.Image.Names
      · simp [holders, ht]
      · simp [holders, ht, ih]

theorem holders_pos_of_mem (l : List ImageState) (t : ImageState)
    (n : String) (ht : t ∈ l) (hn : n ∈ t.Image.Names) :
    1 ≤ holders l n := by
  induction l with
  | nil => simp at ht
  | cons x l ih =>
      rcases List.mem_cons.mp ht with rfl | ht2
      · simp [holders, hn]
      · have := ih ht2
        simp [holders]
        by_cases hx : n ∈ x.Image.Names
        · simp [hx]
        · simp [hx]
          omega

theorem holders_updateStateById_pres (l : List ImageState) (id n : String)
    (f : ImageState → ImageState)
    (hf : ∀ t, n ∈ (f t).Image.Names ↔ n ∈ t.Image.Names) :
    holders (updateStateById l id f) n = holders l n := by
  induction l with
  | nil => rfl
  | cons t l ih =>
      by_cases ht : t.Image.ImageId = id
      · simp only [updateStateById, if_pos ht, holders]
        by_cases hn : n ∈ t.Image.Names
        · rw [if_pos ((hf t).mpr hn), if_pos hn]
        · rw [if_neg (fun hcon => hn ((hf t).mp hcon)), if_neg hn]
      · simp only [updateStateById, if_neg ht, holders, ih]

theorem holders_removeExisting_ne (l : List ImageState) (X id n : String)
    (hne : n ≠ X) :
    holders (removeExistingImageNameOfDifferentID l X id) n = holders l n := by
  induction l with
  | nil => rfl
  | cons t l ih =>
      by_cases hc : t.Image.ImageId ≠ id ∧ X ∈ t.Image.Names
      · simp only [removeExistingImageNameOfDifferentID, if_pos hc, holders]
        have hmem : n ∈ t.Image.Names.erase X ↔ n ∈ t.Image.Names := by
          constructor
          · intro h2
            exact List.mem_of_mem_erase h2
          · intro h2
            exact (List.mem_erase_of_ne hne).mpr h2
        by_cases hn : n ∈ t.Image.Names
        · rw [if_pos (hmem.mpr hn), if_pos hn]
        · rw [if_neg (fun hcon => hn (hmem.mp hcon)), if_neg hn]
      · simp only [removeExistingImageNameOfDifferentID, if_neg hc, holders,
          ih]

theorem removeExisting_no_match (l : List ImageState) (X id : String)
    (h : ∀ t ∈ l, ¬ (t.Image.ImageId ≠ id ∧ X ∈ t.Image.Names)) :
    removeExistingImageNameOfDifferentID l X id = l := by
  induction l with
  | nil => rfl
  | cons t l ih =>
      have ht := h t (by simp)
      simp only [removeExistingImageNameOfDifferentID, if_neg ht]
      rw [ih (fun x hx => h x (by simp [hx]))]

theorem removeExisting_decomp (u : List ImageState) (A : ImageState)
    (v : List ImageState) (X id : String)
    (hu : ∀ t ∈ u, ¬ (t.Image.ImageId ≠ id ∧ X ∈ t.Image.Names))
    (hA : A.Image.ImageId ≠ id ∧ X ∈ A.Image.Names) :
    removeExistingImageNameOfDifferentID (u ++ A :: v) X id =
      u ++ ({ A with Image :=
        { A.Image with Names := A.Image.Names.erase X } }) :: v := by
  induction u with
  | nil => simp [removeExistingImageNameOfDifferentID, hA]
  | cons t u ih =>
      have ht := hu t (by simp)
      simp only [List.cons_append, removeExistingImageNameOfDifferentID,
        if_neg ht, List.append_eq]
      rw [ih (fun x hx => hu x (by simp [hx]))]

theorem first_state_decomp (l : List ImageState) (X id : String)
    (h : ∃ t ∈ l, t.Image.ImageId ≠ id ∧ X ∈ t.Image.Names) :
    ∃ u A v, l = u ++ A :: v ∧
      (A.Image.ImageId ≠ id ∧ X ∈ A.Image.Names) ∧
      ∀ t ∈ u, ¬ (t.Image.ImageId ≠ id ∧ X ∈ t.Image.Names) := by
  induction l with
  | nil => simp at h
  | cons x l ih =>
      by_cases hx : x.Image.ImageId ≠ id ∧ X ∈ x.Image.Names
      · exact ⟨[], x, l, rfl, hx, by simp⟩
      · have h2 : ∃ t ∈ l, t.Image.ImageId ≠ id ∧ X ∈ t.Image.Names := by
          obtain ⟨t, ht, hp⟩ := h
          rcases List.mem_cons.mp ht with rfl | ht2
          · exact absurd hp hx
          · exact ⟨t, ht2, hp⟩
        obtain ⟨u, A, v, hl, hA, hu⟩ := ih h2
        refine ⟨x :: u, A, v, by simp [hl], hA, ?_⟩
        intro t ht
        rcases List.mem_cons.mp ht with rfl | ht2
        · exact hx
        · exact hu t ht2

theorem getImageState_updateStateById_ne (l : List ImageState)
    (id id2 : String) (f : ImageState → ImageState)
    (hf : ∀ s, (f s).Image.ImageId = s.Image.ImageId) (hne : id ≠ id2) :
    getImageState (updateStateById l id f) id2 = getImageState l id2 := by
  induction l with
  | nil => rfl
  | cons t l ih =>
      by_cases ht : t.Image.ImageId = id
      · have hft : (f t).Image.ImageId ≠ id2 := by
          rw [hf t, ht]
          exact hne
        have ht2 : t.Image.ImageId ≠ id2 := by
          rw [ht]
          exact hne
        simp only [updateStateById, if_pos ht, getImageState, if_neg hft,
          if_neg ht2]
      · simp only [updateStateById, if_neg ht, getImageState, ih]

theorem getImageState_append_left (u v : List ImageState) (id : String)
    (s : ImageState) (h : getImageState u id = some s) :
    getImageState (u ++ v) id = some s := by
  induction u with
  | nil => simp [getImageState] at h
  | cons t u ih =>
      by_cases ht : t.Image.ImageId = id
      · simp only [getImageState, if_pos ht] at h
        simp only [List.cons_append, getImageState, if_pos ht]
        exact h
      · simp only [getImageState, if_neg ht] at h
        simp only [List.cons_append, getImageState, if_neg ht]
        exact ih h

/-- After a successful add, every alias still lives in at most one
tracked state, provided it did before, image IDs were unique, and no
state carried a duplicated alias. -/
theorem addRef_holders (states : List ImageState) (c : Container)
    (ii : InspectedImage) (now : Int) (himg : c.Image ≠ "")
    (huniq : ∀ n2, holders states n2 ≤ 1)
    (hids : countById states ii.ID ≤ 1)
    (hnodupA : ∀ s ∈ states, s.Image.Names.Nodup) :
    ∀ n, holders (addContainerReferenceToImageState states c (.ok ii)
      now).1 n ≤ 1 := by
  intro n
  have hf_names : ∀ t : ImageState,
      (updateContainerReference
        (if hasImageName t c.Image then t else addImageName t c.Image)
          c).Image.Names =
        (if c.Image ∈ t.Image.Names then t.Image.Names
         else t.Image.Names ++ [c.Image]) := by
    intro t
    by_cases hm : c.Image ∈ t.Image.Names
    · simp [updateContainerReference, hasImageName, hm]
    · simp [updateContainerReference, hasImageName, hm, addImageName]
  by_cases hnX : n = c.Image
  · rw [hnX]
    by_cases hex : ∃ t ∈ states,
        t.Image.ImageId ≠ ii.ID ∧ c.Image ∈ t.Image.Names
    · obtain ⟨u, A, v, hsplit, hA, hufirst⟩ :=
        first_state_decomp states c.Image ii.ID hex
      have hre : removeExistingImageNameOfDifferentID states c.Image ii.ID =
          u ++ ({ A with Image :=
            { A.Image with Names := A.Image.Names.erase c.Image } }) :: v := by
        rw [hsplit]
        exact removeExisting_decomp u A v c.Image ii.ID hufirst hA
      have hAnodup : A.Image.Names.Nodup :=
        hnodupA A (by rw [hsplit]; simp)
      have hA2X : c.Image ∉ A.Image.Names.erase c.Image := by
        intro hcon
        exact ((List.Nodup.mem_erase_iff hAnodup).mp hcon).1 rfl
      have huvX : holders u c.Image = 0 ∧ holders v c.Image = 0 := by
        have h1 := huniq c.Image
        rw [hsplit, holders_append] at h1
        simp only [holders, if_pos hA.2] at h1
        omega
      have h0 : holders (removeExistingImageNameOfDifferentID states c.Image
          ii.ID) c.Image = 0 := by
        rw [hre, holders_append]
        simp only [holders, if_neg hA2X]
        omega
      simp only [addContainerReferenceToImageState, if_neg himg]
      cases hg : getImageState (removeExistingImageNameOfDifferentID states
          c.Image ii.ID) ii.ID with
      | some s0 =>
          obtain ⟨hid0, u2, v2, hdec2, hu2⟩ :=
            getImageState_decomp _ ii.ID s0 hg
          simp only [hg]
          rw [hdec2, updateStateById_of_decomp u2 s0 v2 ii.ID _ hu2 hid0,
            holders_append]
          rw [hdec2, holders_append] at h0
          simp only [holders] at h0 ⊢
          by_cases hfs : c.Image ∈ (updateContainerReference
              (if hasImageName s0 c.Image then s0
               else addImageName s0 c.Image) c).Image.Names
          · simp only [if_pos hfs]
            omega
          · simp only [if_neg hfs]
            omega
      | none =>
          simp only [hg]
          rw [holders_append, h0]
          simp [holders, updateContainerReference, addImageName]
    · have hre : removeExistingImageNameOfDifferentID states c.Image ii.ID =
          states :=
        removeExisting_no_match states c.Image ii.ID (by
          intro t ht hcon
          exact hex ⟨t, ht, hcon⟩)
      have hallid : ∀ t ∈ states, c.Image ∈ t.Image.Names →
          t.Image.ImageId = ii.ID := by
        intro t ht hn
        by_contra hcon
        exact hex ⟨t, ht, hcon, hn⟩
      simp only [addContainerReferenceToImageState, if_neg himg, hre]
      cases hg : getImageState states ii.ID with
      | some s0 =>
          obtain ⟨hid0, u2, v2, hdec2, hu2⟩ :=
            getImageState_decomp _ ii.ID s0 hg
          have hu2id : countById u2 ii.ID = 0 ∧ countById v2 ii.ID = 0 := by
            rw [hdec2, countById_append] at hids
            simp [countById, hid0] at hids
            omega
          have hu2X : holders u2 c.Image = 0 := by
            rw [holders_eq_zero_iff]
            intro t ht hn
            have h1 := hallid t (by rw [hdec2]; simp [ht]) hn
            exact (countById_eq_zero_iff u2 ii.ID).mp hu2id.1 t ht h1
          have hv2X : holders v2 c.Image = 0 := by
            rw [holders_eq_zero_iff]
            intro t ht hn
            have h1 := hallid t (by rw [hdec2]; simp [ht]) hn
            exact (countById_eq_zero_iff v2 ii.ID).mp hu2id.2 t ht h1
          simp only [hg]
          rw [hdec2, updateStateById_of_decomp u2 s0 v2 ii.ID _ hu2 hid0,
            holders_append]
          simp only [holders]
          by_cases hfs : c.Image ∈ (updateContainerReference
              (if hasImageName s0 c.Image then s0
               else addImageName s0 c.Image) c).Image.Names
          · simp only [if_pos hfs]
            omega
          · simp only [if_neg hfs]
            omega
      | none =>
          have h0 : holders states c.Image = 0 := by
            rw [holders_eq_zero_iff]
            intro t ht hn
            exact ((getImageState_none_iff states ii.ID).mp hg) t ht
              (hallid t ht hn)
          simp only [hg]
          rw [holders_append, h0]
          simp [holders, updateContainerReference, addImageName]
  · have h1 : holders (removeExistingImageNameOfDifferentID states c.Image
        ii.ID) n = holders states n :=
      holders_removeExisting_ne states c.Image ii.ID n hnX
    simp only [addContainerReferenceToImageState, if_neg himg]
    cases hg : getImageState (removeExistingImageNameOfDifferentID states
        c.Image ii.ID) ii.ID with
    | some s0 =>
        simp only [hg]
        have hfmem : ∀ t : ImageState, n ∈ (updateContainerReference
            (if hasImageName t c.Image then t else addImageName t c.Image)
              c).Image.Names ↔ n ∈ t.Image.Names := by
          intro t
          rw [hf_names t]
          by_cases hm : c.Image ∈ t.Image.Names
          · rw [if_pos hm]
          · rw [if_neg hm]
            simp [hnX]
        rw [holders_updateStateById_pres _ _ _ _ hfmem, h1]
        exact huniq n
    | none =>
        simp only [hg]
        rw [holders_append, h1]
        have h2 : holders [updateContainerReference
            (addImageName
              { Image := { ImageId := ii.ID, Names := [], Size := ii.Size },
                Containers := [], PulledAt := now, LastUsedAt := 0 }
              c.Image) c] n = 0 := by
          simp [holders, updateContainerReference, addImageName, hnX]
        rw [h2]
        have := huniq n
        omega

theorem countById_pos_of_mem (l : List ImageState) (t : ImageState)
    (id : String) (ht : t ∈ l) (hid : t.Image.ImageId = id) :
    1 ≤ countById l id := by
  induction l with
  | nil => simp at ht
  | cons x l ih =>
      rcases List.mem_cons.mp ht with rfl | ht2
      · simp [countById, hid]
      · have := ih ht2
        simp only [countById]
        by_cases hx : x.Image.ImageId = id
        · simp [hx]
        · simp [hx]
          omega

/-! ### C6 -/

/-- C6: in every reachable inventory — alias lists duplicate-free, image
IDs unique, each alias held by at most one state — both reference
operations preserve the at-most-one-holder property for every alias; and
when the add resolves name `c.Image` to a new ID while a tracked state `A`
holds that alias under a different ID, the result strips the alias from
`A` (exactly `List.erase`, so `A`'s other aliases survive in order) and
the state resolved for the inspected ID holds it. -/
theorem alias_uniqueness_preserved (states : List ImageState)
    (c : Container) (inspect : Except String InspectedImage) (now : Int)
    (huniq : ∀ n, holders states n ≤ 1)
    (hids : ∀ i2, countById states i2 ≤ 1)
    (hnodup : ∀ s ∈ states, s.Image.Names.Nodup) :
    (∀ n, holders
      (addContainerReferenceToImageState states c inspect now).1 n ≤ 1) ∧
    (∀ n, holders
      (removeContainerReferenceFromImageState states c inspect now).1 n ≤ 1) ∧
    (∀ ii u A v, inspect = .ok ii → c.Image ≠ "" → states = u ++ A :: v →
      A.Image.ImageId ≠ ii.ID → c.Image ∈ A.Image.Names →
      ∃ A2, getImageState
          (addContainerReferenceToImageState states c inspect now).1
          A.Image.ImageId = some A2 ∧
        A2.Image.Names = A.Image.Names.erase c.Image ∧
        ∃ B, getImageState
            (addContainerReferenceToImageState states c inspect now).1
            ii.ID = some B ∧
          c.Image ∈ B.Image.Names) := by
  refine ⟨?_, ?_, ?_⟩
  · intro n
    by_cases himg : c.Image = ""
    · simp only [addContainerReferenceToImageState, if_pos himg]
      exact huniq n
    · cases inspect with
      | error e =>
          simp only [addContainerReferenceToImageState, if_neg himg]
          exact huniq n
      | ok ii =>
          exact addRef_holders states c ii now himg huniq (hids ii.ID)
            hnodup n
  · intro n
    by_cases himg : c.Image = ""
    · simp only [removeContainerReferenceFromImageState, if_pos himg]
      exact huniq n
    · cases inspect with
      | error e =>
          simp only [removeContainerReferenceFromImageState, if_neg himg]
          exact huniq n
      | ok ii =>
          cases hg : getImageState states ii.ID with
          | none =>
              simp only [removeContainerReferenceFromImageState,
                if_neg himg, hg]
              exact huniq n
          | some s0 =>
              by_cases hany :
                  s0.Containers.any (fun t => t.Name = c.Name) = true
              · simp only [removeContainerReferenceFromImageState,
                  if_neg himg, hg, if_pos hany]
                rw [holders_updateStateById_pres states ii.ID n
                    (fun t =>
                      { t with
                        Containers :=
                          removeFirstContainerByName t.Containers c.Name,
                        LastUsedAt := now })
                    (fun t => Iff.rfl)]
                exact huniq n
              · simp only [removeContainerReferenceFromImageState,
                  if_neg himg, hg, if_neg hany]
                exact huniq n
  · intro ii u A v hins himg hsplit hAid hAX
    subst hins
    have hufirst : ∀ t ∈ u,
        ¬ (t.Image.ImageId ≠ ii.ID ∧ c.Image ∈ t.Image.Names) := by
      intro t ht hcon
      have h1 := huniq c.Image
      rw [hsplit, holders_append] at h1
      have h2 : 1 ≤ holders u c.Image :=
        holders_pos_of_mem u t c.Image ht hcon.2
      simp only [holders, if_pos hAX] at h1
      omega
    have hre : removeExistingImageNameOfDifferentID states c.Image ii.ID =
        u ++ ({ A with Image :=
          { A.Image with Names := A.Image.Names.erase c.Image } }) :: v := by
      rw [hsplit]
      exact removeExisting_decomp u A v c.Image ii.ID hufirst ⟨hAid, hAX⟩
    have hAidu : ∀ t ∈ u, t.Image.ImageId ≠ A.Image.ImageId := by
      have h1 := hids A.Image.ImageId
      rw [hsplit, countById_append] at h1
      simp only [countById, eq_self_iff_true, if_true] at h1
      intro t ht hcon
      have h2 : 1 ≤ countById u A.Image.ImageId :=
        countById_pos_of_mem u t A.Image.ImageId ht hcon
      omega
    have hgA : getImageState (u ++ ({ A with Image :=
        { A.Image with Names := A.Image.Names.erase c.Image } }) :: v)
        A.Image.ImageId = some ({ A with Image :=
          { A.Image with Names := A.Image.Names.erase c.Image } }) :=
      getImageState_of_decomp u _ v A.Image.ImageId hAidu rfl
    have hfid : ∀ t : ImageState, ((fun t =>
        updateContainerReference
          (if hasImageName t c.Image then t else addImageName t c.Image) c)
            t).Image.ImageId = t.Image.ImageId := by
      intro t
      by_cases hm : hasImageName t c.Image
      · simp [hm, updateContainerReference]
      · simp [hm, updateContainerReference, addImageName]
    simp only [addContainerReferenceToImageState, if_neg himg, hre]
    cases hg : getImageState (u ++ ({ A with Image :=
        { A.Image with Names := A.Image.Names.erase c.Image } }) :: v)
        ii.ID with
    | some s0 =>
        obtain ⟨hid0, u2, v2, hdec2, hu2⟩ :=
          getImageState_decomp _ ii.ID s0 hg
        simp only [hg]
        refine ⟨{ A with Image :=
          { A.Image with Names := A.Image.Names.erase c.Image } }, ?_, rfl,
          ?_⟩
        · rw [getImageState_updateStateById_ne _ ii.ID A.Image.ImageId _
            hfid (Ne.symm hAid)]
          exact hgA
        · rw [hdec2, updateStateById_of_decomp u2 s0 v2 ii.ID _ hu2 hid0]
          refine ⟨_, getImageState_of_decomp u2 _ v2 ii.ID hu2
            (hfid s0 ▸ hid0), ?_⟩
          by_cases hm : c.Image ∈ s0.Image.Names
          · simp [updateContainerReference, hasImageName, hm]
          · simp [updateContainerReference, hasImageName, hm, addImageName]
    | none =>
        simp only [hg]
        refine ⟨{ A with Image :=
          { A.Image with Names := A.Image.Names.erase c.Image } }, ?_, rfl,
          ?_⟩
        · exact getImageState_append_left _ _ _ _ hgA
        · rw [getImageState_append_of_none _ _ _ hg]
          refine ⟨updateContainerReference
            (addImageName
              { Image := { ImageId := ii.ID, Names := [], Size := ii.Size },
                Containers := [], PulledAt := now, LastUsedAt := 0 }
              c.Image) c, ?_, ?_⟩
          · simp [getImageState, updateContainerReference, addImageName]
          · simp [updateContainerReference, addImageName]

/-- Concrete holder state for the C6 witness: holds alias "x" under
ID "id-a"; the witness retags "x" to the fresh ID "id-b". -/
def c6holder : ImageState :=
  { Image := { ImageId := "id-a", Names := ["x", "other"], Size := 1 },
    Containers := [], PulledAt := 0, LastUsedAt := 0 }

theorem alias_uniqueness_preserved_witness :
    ∃ A2, getImageState (addContainerReferenceToImageState [c6holder]
        { Name := "c1", Image := "x" } (.ok { ID := "id-b", Size := 2 })
        3).1 c6holder.Image.ImageId = some A2 ∧
      A2.Image.Names = c6holder.Image.Names.erase "x" ∧
      ∃ B, getImageState (addContainerReferenceToImageState [c6holder]
          { Name := "c1", Image := "x" } (.ok { ID := "id-b", Size := 2 })
          3).1 "id-b" = some B ∧
        ("x" : String) ∈ B.Image.Names :=
  (alias_uniqueness_preserved [c6holder] { Name := "c1", Image := "x" }
    (.ok { ID := "id-b", Size := 2 }) 3
    (by
      intro n
      simp only [holders, c6holder]
      split
      · simp
      · simp)
    (by
      intro i2
      simp only [countById, c6holder]
      split
      · simp
      · simp)
    (by
      intro s hs
      simp only [List.mem_singleton] at hs
      subst hs
      decide)).2.2
    { ID := "id-b", Size := 2 } [] c6holder [] rfl (by decide) rfl
    (by decide) (by decide)

end EcsImage
